import Mathlib

/-
Verification development for the clustering / merge engine of the yass
repository (src/src/yass/cluster/util.py).  Python/numpy code is shallowly
embedded over Lean lists of rationals: dense float matrices become
`List (List ℚ)` (row major unless noted), component-indexed parameter arrays
become lists indexed by component, and the IEEE behaviour of dividing by a
zero row sum is captured by an explicit value type with NaN/inf points.
External collaborators (the mfm mixture fitter and merge tester) are
modelled as oracle parameters, as the spec directs.
-/

set_option maxRecDepth 10000

namespace Yass

attribute [local semireducible] Rat.add Rat.mul Rat.sub Rat.inv

/-- Entry `j` of row `i` of a dense row-major rational matrix (0 outside). -/
def colVal (m : List (List ℚ)) (i j : ℕ) : ℚ := (m.getD i []).getD j 0

/-- Column sum of a dense row-major matrix, embedding `np.sum(m, axis=0)[j]`. -/
def colSum (m : List (List ℚ)) (j : ℕ) : ℚ := (m.map (fun r => r.getD j 0)).sum

/-- Result values of an IEEE float division: a rational, or one of the
non-finite floats NaN / +inf / -inf produced by a zero divisor. -/
inductive RVal where
  | nan : RVal
  | pinf : RVal
  | ninf : RVal
  | val : ℚ → RVal
  deriving DecidableEq

/-- IEEE division `x / s` of two (finitely representable) reals: a zero
divisor yields NaN for a zero numerator and a signed infinity otherwise. -/
def ieeeDiv (x s : ℚ) : RVal :=
  if s = 0 then (if x = 0 then RVal.nan else if 0 < x then RVal.pinf else RVal.ninf)
  else RVal.val (x / s)

/-- `vbParam.rhat[vbParam.rhat < 0.1] = 0` applied to one spike row
(util.py line 75 / line 145). -/
def thresholdRow (r : List ℚ) : List ℚ := r.map (fun x => if x < 1/10 then 0 else x)

/-- `vbParam.rhat / np.sum(vbParam.rhat, 1, keepdims=True)` applied to one
(already thresholded) spike row, with IEEE semantics for a zero row sum
(util.py lines 76-77 / 146-147). -/
def normalizeRowR (r : List ℚ) : List RVal := r.map (fun x => ieeeDiv x r.sum)

/-- The per-channel responsibility post-processing of run_cluster and
run_cluster_location (util.py lines 74-77 and 144-147): zero every entry
below 0.1, then divide each row by its (new) row sum. -/
def postprocess_rhat (rhat : List (List ℚ)) : List (List RVal) :=
  rhat.map (fun r => normalizeRowR (thresholdRow r))

/-- Whether an IEEE division result is an ordinary (finite) float. -/
def RVal.isFiniteV : RVal → Bool
  | RVal.val _ => true
  | _ => false

/-- The rational carried by a finite division result (0 on NaN/±inf). -/
def RVal.toQ : RVal → ℚ
  | RVal.val q => q
  | _ => 0

/-- Some entry of the post-processed responsibility matrix is NaN or ±inf. -/
def hasNonfinite (m : List (List RVal)) : Bool :=
  m.any (fun r => r.any (fun x => !x.isFiniteV))

/-- The spike row every entry of which is 1/11: a legitimate mixture-fitter
responsibility row (entries in [0,1] summing to 1) over 11 components. -/
def uniformRow11 : List ℚ := List.replicate 11 (1/11)

/-- Concrete fitter output used to refute claim C1. -/
def rhatC1 : List (List ℚ) := [uniformRow11]

/-- Pure-rational model of the same post-processing for pipeline code paths
whose claims are stated only on inputs where every row keeps an entry at or
above the 0.1 floor.  There Lean's 0/0 = 0 convention makes an all-zero row
stay all-zero, which agrees with a Python NaN row on every use the pipeline
makes of it (only strict positivity tests and sums over positive entries). -/
def postprocessQ (rhat : List (List ℚ)) : List (List ℚ) :=
  rhat.map (fun r =>
    let r1 := thresholdRow r
    r1.map (fun x => x / r1.sum))

/-- A per-channel mixture state as returned by the mfm fitter
(mfm.vbPar): component-indexed parameter arrays plus a dense
responsibility matrix.  muhat is stored as the list of its K columns
(numpy shape (d, K, 1)); Vhat/invVhat as K matrices (numpy (d, d, K, 1));
rhat is row-major with n_data rows of length K. -/
structure VbParamC where
  muhat : List (List ℚ)
  Vhat : List (List (List ℚ))
  invVhat : List (List (List ℚ))
  nuhat : List ℚ
  lambdahat : List ℚ
  ahat : List ℚ
  rhat : List (List ℚ)
  deriving DecidableEq

/-- clean_empty_cluster (util.py lines 510-523): keep exactly the components
whose responsibility column sum exceeds min_spikes, dropping the same
component indices from every parameter array and from the rhat columns. -/
def clean_empty_cluster (vb : VbParamC) (min_spikes : ℚ) : VbParamC :=
  let K := vb.muhat.length
  let keep := (List.range K).filter (fun k => min_spikes < colSum vb.rhat k)
  { muhat := keep.filterMap (fun k => vb.muhat.get? k)
    Vhat := keep.filterMap (fun k => vb.Vhat.get? k)
    invVhat := keep.filterMap (fun k => vb.invVhat.get? k)
    nuhat := keep.filterMap (fun k => vb.nuhat.get? k)
    lambdahat := keep.filterMap (fun k => vb.lambdahat.get? k)
    ahat := keep.filterMap (fun k => vb.ahat.get? k)
    rhat := vb.rhat.map (fun r => keep.filterMap (fun k => r.get? k)) }

/-- The triplet conversion at the head of global_cluster_info (util.py lines
454-458): `np.where(rhat > 0)` in row-major order paired with the entry
values, giving (spike id, component id, probability) rows.  Ids are kept as
naturals; the Python code stores them as floats but only ever shifts them by
integral offsets and takes maxima. -/
def denseToTriplets (rhat : List (List ℚ)) : List (ℕ × ℕ × ℚ) :=
  (rhat.enum.map (fun p =>
    (p.2.enum.filterMap (fun q =>
      if 0 < q.2 then some (p.1, q.1, q.2) else none)))).flatten

/-- The global cluster collection built by global_cluster_info: concatenated
parameter arrays, the sparse triplet rhat, the origin-channel array tmp_loc,
and the concatenated feature and spike-reference arrays. -/
structure GState where
  muhat : List (List ℚ)
  Vhat : List (List (List ℚ))
  invVhat : List (List (List ℚ))
  nuhat : List ℚ
  lambdahat : List ℚ
  ahat : List ℚ
  rhatT : List (ℕ × ℕ × ℚ)
  tmpLoc : List ℕ
  score : List (List ℚ)
  spikeIndex : List (ℕ × ℕ)
  deriving DecidableEq

/-- Maximum spike id present in the global triplet list
(`np.max(global_vbParam.rhat[:, 0])`; 0 when the list is empty, a case the
Python code never reaches because only channels with components are folded). -/
def maxSpikeId (ts : List (ℕ × ℕ × ℚ)) : ℕ := (ts.map (fun t => t.1)).foldr max 0

/-- Maximum component id present in the global triplet list
(`np.max(global_vbParam.rhat[:, 1])`). -/
def maxCompId (ts : List (ℕ × ℕ × ℚ)) : ℕ := (ts.map (fun t => t.2.1)).foldr max 0

/-- global_cluster_info (util.py lines 418-507).  On the first call the
channel's state becomes the global state and tmp_loc is the channel id
repeated once per component.  On later calls every parameter array is
concatenated along the component axis, the incoming triplets' spike and
component ids are shifted by the respective current maximum + 1, and
tmp_loc, score and spike_index are extended in the same order. -/
def global_cluster_info (vb : VbParamC) (main_channel : ℕ)
    (score : List (List ℚ)) (spike_index : List (ℕ × ℕ)) :
    Option GState → GState
  | none =>
    { muhat := vb.muhat, Vhat := vb.Vhat, invVhat := vb.invVhat
      nuhat := vb.nuhat, lambdahat := vb.lambdahat, ahat := vb.ahat
      rhatT := denseToTriplets vb.rhat
      tmpLoc := List.replicate vb.muhat.length main_channel
      score := score, spikeIndex := spike_index }
  | some g =>
    let nmax := maxSpikeId g.rhatT
    let kmax := maxCompId g.rhatT
    { muhat := g.muhat ++ vb.muhat
      Vhat := g.Vhat ++ vb.Vhat
      invVhat := g.invVhat ++ vb.invVhat
      nuhat := g.nuhat ++ vb.nuhat
      lambdahat := g.lambdahat ++ vb.lambdahat
      ahat := g.ahat ++ vb.ahat
      rhatT := g.rhatT ++
        (denseToTriplets vb.rhat).map (fun t => (t.1 + (nmax + 1), t.2.1 + (kmax + 1), t.2.2))
      tmpLoc := g.tmpLoc ++ List.replicate vb.muhat.length main_channel
      score := g.score ++ score
      spikeIndex := g.spikeIndex ++ spike_index }

/-- One channel's contribution to the global fold: its channel id, its
post-pruning mixture state and its score and spike-index arrays. -/
structure ChanFold where
  ch : ℕ
  vb : VbParamC
  score : List (List ℚ)
  spikeIndex : List (ℕ × ℕ)
  deriving DecidableEq

/-- The sequence of global_cluster_info folds performed over channels in
ascending order, starting from the initial `None` global state. -/
def foldGCI (cs : List ChanFold) : Option GState :=
  cs.foldl (fun g c => some (global_cluster_info c.vb c.ch c.score c.spikeIndex g)) none

/-- The per-channel loop body of run_cluster (util.py lines 59-89) given the
external mixture fitter as an oracle: channels with fewer than 2 spikes are
skipped; otherwise the fitter result is post-processed, pruned, and folded
into the global state unconditionally. -/
def run_cluster_step (fit : ℕ → List (List ℚ) → VbParamC) (min_spikes : ℚ)
    (channel : ℕ) (score_channel : List (List ℚ))
    (spike_index_channel : List (ℕ × ℕ)) (g : Option GState) : Option GState :=
  if 1 < score_channel.length then
    let vb := fit channel score_channel
    let vb1 := { vb with rhat := postprocessQ vb.rhat }
    let vb2 := clean_empty_cluster vb1 min_spikes
    some (global_cluster_info vb2 channel score_channel spike_index_channel g)
  else g

/-- The per-channel loop body of run_cluster_location (util.py lines
126-159): as run_cluster_step, but the fold only happens when the pruned
state still has at least one component (`vbParam.rhat.shape[1] > 0`; after
clean_empty_cluster the rhat column count equals the muhat component count). -/
def run_cluster_location_step (fit : ℕ → List (List ℚ) → VbParamC) (min_spikes : ℚ)
    (channel : ℕ) (score_channel : List (List ℚ))
    (spike_index_channel : List (ℕ × ℕ)) (g : Option GState) : Option GState :=
  if 1 < score_channel.length then
    let vb := fit channel score_channel
    let vb1 := { vb with rhat := postprocessQ vb.rhat }
    let vb2 := clean_empty_cluster vb1 min_spikes
    if 0 < vb2.muhat.length then
      some (global_cluster_info vb2 channel score_channel spike_index_channel g)
    else g
  else g

/-- Dot product of two rational vectors. -/
def dotQ (a b : List ℚ) : ℚ := (List.zipWith (fun x y => x * y) a b).sum

/-- Matrix-vector product over row lists. -/
def matVec (m : List (List ℚ)) (v : List ℚ) : List ℚ := m.map (fun r => dotQ r v)

/-- The quadratic form diff^T M diff used by the Mahalanobis distances. -/
def quadForm (m : List (List ℚ)) (v : List ℚ) : ℚ := dotQ v (matVec m v)

/-- Scale every entry of a matrix (Vhat * nuhat, the effective precision). -/
def smulMat (c : ℚ) (m : List (List ℚ)) : List (List ℚ) := m.map (fun r => r.map (fun x => c * x))

/-- Pointwise vector difference. -/
def subVec (a b : List ℚ) : List ℚ := List.zipWith (fun x y => x - y) a b

/-- An entry of the pairwise distance matrix: +infinity or a finite squared
distance. -/
inductive EDist where
  | inf : EDist
  | fin : ℚ → EDist
  deriving DecidableEq

/-- The merge gate `d < 15` on a distance-matrix entry; +infinity never
passes the gate. -/
def EDist.gate : EDist → Bool
  | EDist.inf => false
  | EDist.fin q => decide (q < 15)

/-- Entry (i, j) of a distance matrix stored as a row list (+infinity
outside the stored rectangle). -/
def mahaAt (m : List (List EDist)) (i j : ℕ) : EDist := (m.getD i []).getD j EDist.inf

/-- calculate_maha_clusters (util.py lines 219-230): for every ordered pair
(i, j) the squared distance of component j's mean from component i's mean
under component i's effective precision Vhat_i * nuhat_i, with every
diagonal entry then overwritten by +infinity. -/
def calculate_maha_clusters (vb : VbParamC) : List (List EDist) :=
  vb.muhat.enum.map (fun pi =>
    vb.muhat.enum.map (fun pj =>
      if pj.1 = pi.1 then EDist.inf
      else EDist.fin (quadForm
        (smulMat (vb.nuhat.getD pi.1 0) (vb.Vhat.getD pi.1 []))
        (subVec pi.2 pj.2))))

/-- The merged component's parameters returned by an accepting
mfm.check_merge call (the first component of the local two-component
sub-mixture after the merge). -/
structure MergedParams where
  mu : List ℚ
  V : List (List ℚ)
  invV : List (List ℚ)
  nu : ℚ
  lam : ℚ
  a : ℚ
  deriving DecidableEq

/-- One answer of the external merge-test collaborator mfm.check_merge for
one candidate pair: an uncaught exception, a rejection, or an acceptance
carrying the merged component's parameters. -/
inductive MergeAnswer where
  | fail : MergeAnswer
  | reject : MergeAnswer
  | accept : MergedParams → MergeAnswer
  deriving DecidableEq

/-- The state mutated by the merge_move_patches loop: the global mixture
state, the distance matrix, the candidate queue (neigh_clusters, consumed
from its tail) and the current anchor component (cluster). -/
structure MergeState where
  vb : VbParamC
  maha : List (List EDist)
  queue : List ℕ
  cluster : ℕ
  deriving DecidableEq

/-- The accepted-merge update of the mixture state (util.py lines 266-287)
for surviving index ka and removed index kb: every parameter array deletes
entry kb and then writes the merged parameters at index ka (valid because
ka < kb), the rhat column ka becomes the sum of the former columns ka and
kb, and the rhat column kb is removed. -/
def mergeAcceptVb (vb : VbParamC) (ka kb : ℕ) (p : MergedParams) : VbParamC :=
  { muhat := (vb.muhat.eraseIdx kb).set ka p.mu
    Vhat := (vb.Vhat.eraseIdx kb).set ka p.V
    invVhat := (vb.invVhat.eraseIdx kb).set ka p.invV
    nuhat := (vb.nuhat.eraseIdx kb).set ka p.nu
    lambdahat := (vb.lambdahat.eraseIdx kb).set ka p.lam
    ahat := (vb.ahat.eraseIdx kb).set ka p.a
    rhat := vb.rhat.map (fun r => (r.set ka (r.getD ka 0 + r.getD kb 0)).eraseIdx kb) }

/-- The accepted-merge update of the distance matrix (util.py lines
293-311): delete row and column kb, recompute the whole surviving row ka
under the merged precision and the whole column ka under each component's
own precision (both against the already updated means), then set the
diagonal entry (ka, ka) back to +infinity. -/
def mergeAcceptMaha (maha : List (List EDist)) (vb2 : VbParamC) (ka kb : ℕ)
    (p : MergedParams) : List (List EDist) :=
  let m1 := (maha.eraseIdx kb).map (fun r => r.eraseIdx kb)
  let newRow := vb2.muhat.map (fun mu_j =>
    EDist.fin (quadForm (smulMat p.nu p.V) (subVec mu_j p.mu)))
  let m2 := m1.set ka newRow
  let m3 := m2.enum.map (fun pr =>
    pr.2.set ka (EDist.fin (quadForm
      (smulMat (vb2.nuhat.getD pr.1 0) (vb2.Vhat.getD pr.1 []))
      (subVec (vb2.muhat.getD pr.1 []) p.mu))))
  m3.set ka ((m3.getD ka []).set ka EDist.inf)

/-- One accepted merge of merge_move_patches (the `if merged:` branch,
util.py lines 264-314): update the mixture state and the distance matrix,
rebuild the candidate queue from every component within the 15 gate of the
surviving component in either direction, and make the survivor the anchor. -/
def acceptStep (s : MergeState) (p : MergedParams) : MergeState :=
  let i := s.queue.getLastD 0
  let ka := min s.cluster i
  let kb := max s.cluster i
  let vb2 := mergeAcceptVb s.vb ka kb p
  let m := mergeAcceptMaha s.maha vb2 ka kb p
  let q := (List.range vb2.muhat.length).filter (fun j =>
    (mahaAt m ka j).gate || (mahaAt m j ka).gate)
  { vb := vb2, maha := m, queue := q, cluster := ka }

/-- One rejected merge of merge_move_patches (the `if not merged:` branch,
util.py lines 316-318): set both directional entries of the pair to
+infinity and drop the candidate from the tail of the queue. -/
def rejectStep (s : MergeState) : MergeState :=
  let i := s.queue.getLastD 0
  let ka := min s.cluster i
  let kb := max s.cluster i
  let m1 := s.maha.set ka ((s.maha.getD ka []).set kb EDist.inf)
  let m2 := m1.set kb ((m1.getD kb []).set ka EDist.inf)
  { s with maha := m2, queue := s.queue.dropLast }

/-- Outcome of running the merge_move_patches candidate loop: a normal exit
with the queue drained, a propagated collaborator exception, or an artifact
of the embedding's fuel running out. -/
inductive LoopRes where
  | out : MergeState → LoopRes
  | crash : LoopRes
  | fuelOut : LoopRes
  deriving DecidableEq

/-- The `while len(neigh_clusters) > 0` loop of merge_move_patches (util.py
lines 233-320), with the external mfm.check_merge modelled as an oracle
indexed by the call number t.  A `fail` answer is an uncaught Python
exception: the source has no handler, so it propagates and the whole run
crashes.  The local sub-mixture construction feeding check_merge (lines
238-263) only influences the collaborator's answer and lives inside the
oracle. -/
def mergeLoop (oracle : ℕ → MergeAnswer) : ℕ → ℕ → MergeState → LoopRes
  | 0, _, _ => LoopRes.fuelOut
  | fuel + 1, t, s =>
    if s.queue = [] then LoopRes.out s
    else
      match oracle t with
      | MergeAnswer.fail => LoopRes.crash
      | MergeAnswer.reject => mergeLoop oracle fuel (t + 1) (rejectStep s)
      | MergeAnswer.accept p => mergeLoop oracle fuel (t + 1) (acceptStep s p)

/-- Insert an index into a list of indices kept ascending by key. -/
def insertAscBy (key : ℕ → ℚ) (i : ℕ) : List ℕ → List ℕ
  | [] => [i]
  | j :: js => if key i ≤ key j then i :: j :: js else j :: insertAscBy key i js

/-- Insertion sort of indices, ascending by key. -/
def sortAscBy (key : ℕ → ℚ) (l : List ℕ) : List ℕ := l.foldr (insertAscBy key) []

/-- `np.argsort(keys)[::-1]`: the indices 0..len-1 ordered by descending key
(ties in an unspecified order in numpy; any order consistent with the keys
is a faithful model and all uses below have distinct keys where it matters). -/
def argsortDesc (keys : List ℚ) : List ℕ :=
  (sortAscBy (fun i => keys.getD i 0) (List.range keys.length)).reverse

/-- Insert a natural into an ascending list. -/
def insertNatAsc (x : ℕ) : List ℕ → List ℕ
  | [] => [x]
  | y :: ys => if x ≤ y then x :: y :: ys else y :: insertNatAsc x ys

/-- Ascending insertion sort of naturals. -/
def sortNatAsc (l : List ℕ) : List ℕ := l.foldr insertNatAsc []

/-- `np.union1d`: the sorted list of the distinct values of two index lists. -/
def union1d (a b : List ℕ) : List ℕ := sortNatAsc ((a ++ b).dedup)

/-- Insert a rational into an ascending list. -/
def insertQAsc (x : ℚ) : List ℚ → List ℚ
  | [] => [x]
  | y :: ys => if x ≤ y then x :: y :: ys else y :: insertQAsc x ys

/-- Ascending insertion sort of rationals. -/
def sortQAsc (l : List ℚ) : List ℚ := l.foldr insertQAsc []

/-- Arithmetic mean of a rational list (0 on the empty list, where numpy
returns NaN; every use below is guarded to nonempty lists or to strict
comparisons that NaN also fails). -/
def meanQ (l : List ℚ) : ℚ := l.sum / l.length

/-- `np.median`: middle element of the sorted list, or the average of the
two middle elements at even length. -/
def medianQ (l : List ℚ) : ℚ :=
  let s := sortQAsc l
  if s.length % 2 = 1 then s.getD (s.length / 2) 0
  else (s.getD (s.length / 2 - 1) 0 + s.getD (s.length / 2) 0) / 2

/-- statsmodels robust.mad along the spike axis: the median absolute
deviation from the median, divided by the normalisation constant c
(statsmodels uses the irrational Phi^-1(3/4) ~ 0.6745; the constant is kept
as a parameter since any positive value induces the same ranking). -/
def madQ (c : ℚ) (xs : List ℚ) : ℚ := medianQ (xs.map (fun x => |x - medianQ xs|)) / c

/-- Maximum of a rational list (0 on the empty list). -/
def listMaxQ : List ℚ → ℚ
  | [] => 0
  | x :: xs => xs.foldl max x

/-- Minimum of a rational list (0 on the empty list). -/
def listMinQ : List ℚ → ℚ
  | [] => 0
  | x :: xs => xs.foldl min x

/-- `np.ptp` along the time axis: maximum minus minimum of one channel's
mean waveform. -/
def ptpQ (t : List ℚ) : ℚ := listMaxQ t - listMinQ t

/-- The per-channel mean waveform `template = np.mean(wf_data, axis=2)`:
wf_data is channels x time x spikes, the template is channels x time. -/
def templateOf (wf : List (List (List ℚ))) : List (List ℚ) :=
  wf.map (fun ch => ch.map meanQ)

/-- `np.max(np.abs(template), axis=1)` for one channel: the peak absolute
amplitude of its mean waveform (nonnegative, so the 0 seed is neutral). -/
def maxAbsAmp (t : List ℚ) : ℚ := (t.map (fun x => |x|)).foldr max 0

/-- `max_chans` of run_cluster_features (util.py lines 655-658): the top
n_max_chans channels by maximum absolute amplitude of the mean waveform. -/
def maxChansOf (wf : List (List (List ℚ))) (n_max_chans : ℕ) : List ℕ :=
  ((argsortDesc ((templateOf wf).map maxAbsAmp)).take n_max_chans)

/-- `mad_chans` of run_cluster_features (util.py lines 660-667): among the
channels whose template peak-to-peak exceeds 2 signal units, the top
n_mad_chans by the maximum over time of the robust MAD across spikes. -/
def madChansOf (c : ℚ) (wf : List (List (List ℚ))) (n_mad_chans : ℕ) : List ℕ :=
  let template := templateOf wf
  let chan2SU := (List.range template.length).filter (fun i => 2 < ptpQ (template.getD i []))
  let rank_chans_max := chan2SU.map (fun i => listMaxQ ((wf.getD i []).map (madQ c)))
  ((argsortDesc rank_chans_max).filterMap (fun j => chan2SU.get? j)).take n_mad_chans

/-- `feat_chans` of run_cluster_features (util.py lines 654-670): the
union1d of the amplitude-ranked and the MAD-ranked channel selections. -/
def run_cluster_features_featchans (c : ℚ) (wf : List (List (List ℚ)))
    (n_mad_chans n_max_chans : ℕ) : List ℕ :=
  union1d (maxChansOf wf n_max_chans) (madChansOf c wf n_mad_chans)

/-- The feature-channel set exactly as claim C9 words it: part (a) ranked by
PEAK-TO-PEAK amplitude of the mean waveform (the source instead ranks part
(a) by maximum absolute amplitude); part (b) as in the source. -/
def featchans_claimC9 (c : ℚ) (wf : List (List (List ℚ)))
    (n_mad_chans n_max_chans : ℕ) : List ℕ :=
  union1d (((argsortDesc ((templateOf wf).map ptpQ)).take n_max_chans))
    (madChansOf c wf n_mad_chans)

/-- Concrete waveform array (2 channels, 2 time steps, 1 spike) on which the
amplitude ranking of the source and of claim C9 pick different channels:
channel 0 has template [3, 2] (max abs 3, ptp 1), channel 1 has template
[-2, 5/2] (max abs 5/2, ptp 9/2). -/
def wfC9 : List (List (List ℚ)) := [[[3], [2]], [[-2], [5/2]]]

/-- `index_vals[index]` / fancy indexing with a list of row positions (the
positions are always in range under the fitter's row-count contract, where
Python would otherwise raise). -/
def gatherAt (l : List ℕ) (idxs : List ℕ) : List ℕ := idxs.filterMap (fun i => l.get? i)

/-- `np.where(rhat[:, k] > 0)[0]`: the ascending row positions whose entry
in column k is positive. -/
def posIdx (rhat : List (List ℚ)) (k : ℕ) : List ℕ :=
  (rhat.enum.filterMap (fun p => if 0 < p.2.getD k 0 then some p.1 else none))

/-- `np.mean(rhat[index, k])` for `index = posIdx rhat k`: the stability of
component k (0 for an empty column, where numpy yields NaN; both fail every
strict comparison the loop makes). -/
def stabilityOf (rhat : List (List ℚ)) (k : ℕ) : ℚ :=
  meanQ ((posIdx rhat k).map (fun i => colVal rhat i k))

/-- `np.delete(l, rem, axis=0)`: drop the positions listed in rem
(duplicates in rem are harmless, exactly as in numpy). -/
def removeIdxs (l : List ℕ) (rem : List ℕ) : List ℕ :=
  (l.enum.filterMap (fun p => if p.1 ∈ rem then none else some p.2))

/-- `np.argmax`: position of the first maximum of a rational list. -/
def argmaxAux : List ℚ → ℕ → ℕ → ℚ → ℕ
  | [], _, bi, _ => bi
  | x :: xs, i, bi, bv => if bv < x then argmaxAux xs (i + 1) i x else argmaxAux xs (i + 1) bi bv

/-- `np.argmax` over a list (0 on the empty list, where numpy raises). -/
def argmaxQ : List ℚ → ℕ
  | [] => 0
  | x :: xs => argmaxAux xs 1 0 x

/-- Number of components of a dense responsibility matrix
(`rhat.shape[1]`). -/
def rhatCols (rhat : List (List ℚ)) : ℕ := (rhat.headD []).length

/-- The working state of the run_mfm stability loop: the surviving absolute
point indices (index_vals), the current post-processed responsibilities,
and the finalized groups extracted so far (rolling_index_array). -/
structure MfmState where
  indexVals : List ℕ
  rhat : List (List ℚ)
  groups : List (List ℕ)
  deriving DecidableEq

/-- The components a round of run_mfm extracts (util.py lines 769-812): when
some component's mean responsibility over its assigned points exceeds 0.90,
every such component's assigned points become one finalized group each;
otherwise only the single most stable component is extracted. -/
def extractedOf (st : MfmState) : List (List ℕ) :=
  let K := rhatCols st.rhat
  let quals := (List.range K).filter (fun k => 9/10 < stabilityOf st.rhat k)
  if quals = [] then
    [gatherAt st.indexVals (posIdx st.rhat (argmaxQ ((List.range K).map (stabilityOf st.rhat))))]
  else quals.map (fun k => gatherAt st.indexVals (posIdx st.rhat k))

/-- The row positions a round of run_mfm removes from the working set
(remove_indexes, util.py lines 776, 790-812). -/
def removedOf (st : MfmState) : List ℕ :=
  let K := rhatCols st.rhat
  let quals := (List.range K).filter (fun k => 9/10 < stabilityOf st.rhat k)
  if quals = [] then
    posIdx st.rhat (argmaxQ ((List.range K).map (stabilityOf st.rhat)))
  else (quals.map (posIdx st.rhat)).flatten

/-- One iteration of the run_mfm stability loop (util.py lines 761-866),
with the external mfm.spikesort refit (together with the re-alignment and
PCA that feed it) modelled as an oracle from the round number and current
point count to the refitted responsibility matrix.  Returns the next state
and whether the loop stops: it stops when the working set has at most 35
points left after extraction, or when the refit has exactly one component
left, in which case the whole remaining working set is appended as the
final group. -/
def mfmRound (oracle : ℕ → ℕ → List (List ℚ)) (t : ℕ) (st : MfmState) :
    MfmState × Bool :=
  let iv := removeIdxs st.indexVals (removedOf st)
  let gs := st.groups ++ extractedOf st
  if iv.length ≤ 35 then (⟨iv, st.rhat, gs⟩, true)
  else
    let rhat2 := postprocessQ (oracle t iv.length)
    if rhatCols rhat2 = 1 then (⟨iv, rhat2, gs ++ [iv]⟩, true)
    else (⟨iv, rhat2, gs⟩, false)

/-- The `for s in range(1000)` loop of run_mfm, returning the final state
and the number of rounds executed. -/
def mfmLoop (oracle : ℕ → ℕ → List (List ℚ)) : ℕ → ℕ → MfmState → MfmState × ℕ
  | 0, _, st => (st, 0)
  | n + 1, t, st =>
    let r := mfmRound oracle t st
    if r.2 then (r.1, 1)
    else
      let rec2 := mfmLoop oracle n (t + 1) r.1
      (rec2.1, rec2.2 + 1)

/-- run_mfm (util.py lines 737-869) on a retained point set of size n0: the
initial fit is post-processed and the stability loop runs for at most 1000
rounds; the result is the ordered list of finalized point-index groups and
the number of rounds the loop executed. -/
def run_mfm (oracle : ℕ → ℕ → List (List ℚ)) (n0 : ℕ) : List (List ℕ) × ℕ :=
  let st0 : MfmState := ⟨List.range n0, postprocessQ (oracle 0 n0), []⟩
  let r := mfmLoop oracle 1000 1 st0
  (r.1.groups, r.2)

/-- The component ids carried by a triplet list. -/
def compIds (ts : List (ℕ × ℕ × ℚ)) : List ℕ := ts.map (fun t => t.2.1)

/-- The spike ids carried by a triplet list. -/
def spikeIds (ts : List (ℕ × ℕ × ℚ)) : List ℕ := ts.map (fun t => t.1)

/-- The (spike id, probability) projection of a triplet list, used to state
spike-side alignment facts independently of the component ids. -/
def spikeProj (ts : List (ℕ × ℕ × ℚ)) : List (ℕ × ℚ) := ts.map (fun t => (t.1, t.2.2))

/-- The id-shifted triplets global_cluster_info appends on a non-first fold. -/
def shiftedTriplets (vb : VbParamC) (g : GState) : List (ℕ × ℕ × ℚ) :=
  (denseToTriplets vb.rhat).map
    (fun t => (t.1 + (maxSpikeId g.rhatT + 1), t.2.1 + (maxCompId g.rhatT + 1), t.2.2))

/-- Well-formedness of a post-pruning channel state on the component side:
at least one component, and the triplet component ids are exactly
0..K-1 (clean_empty_cluster keeps only components whose responsibility
column carries positive mass, so every kept component appears). -/
def WFcomp (c : ChanFold) : Prop :=
  0 < c.vb.muhat.length ∧
  (∀ k ∈ compIds (denseToTriplets c.vb.rhat), k < c.vb.muhat.length) ∧
  (∀ k, k < c.vb.muhat.length → k ∈ compIds (denseToTriplets c.vb.rhat))

/-- Component-side invariant of the global state maintained by the fold. -/
def INVc (g : GState) : Prop :=
  g.tmpLoc.length = g.muhat.length ∧
  (∀ k ∈ compIds g.rhatT, k < g.muhat.length) ∧
  (∀ k, k < g.muhat.length → k ∈ compIds g.rhatT) ∧
  0 < g.muhat.length

instance (c : ChanFold) : Decidable (WFcomp c) := by
  unfold WFcomp
  infer_instance

instance (g : GState) : Decidable (INVc g) := by
  unfold INVc
  infer_instance

/-- Well-formedness of a channel contribution on the spike side: at least
one spike, spike references parallel to scores, one rhat row per spike, and
every spike keeps at least one responsibility entry above the floor (its
row index appears among the positive triplets). -/
def WFrow (c : ChanFold) : Prop :=
  0 < c.score.length ∧
  c.spikeIndex.length = c.score.length ∧
  c.vb.rhat.length = c.score.length ∧
  (∀ i, i < c.score.length → i ∈ spikeIds (denseToTriplets c.vb.rhat))

instance (c : ChanFold) : Decidable (WFrow c) := by
  unfold WFrow
  infer_instance

/-- Spike-side invariant of the global state maintained by the fold. -/
def INVr (g : GState) : Prop :=
  g.score.length = g.spikeIndex.length ∧
  (∀ s ∈ spikeIds g.rhatT, s < g.score.length) ∧
  (∀ i, i < g.score.length → i ∈ spikeIds g.rhatT) ∧
  0 < g.score.length

/-- The spike-side content the whole fold is expected to produce: each
channel's positive triplets with spike ids shifted by the total number of
spikes contributed by the channels before it. -/
def specTriplesAux : List ChanFold → ℕ → List (ℕ × ℚ)
  | [], _ => []
  | c :: rest, off =>
    (spikeProj (denseToTriplets c.vb.rhat)).map (fun t => (t.1 + off, t.2)) ++
      specTriplesAux rest (off + c.score.length)

/-- Structural invariant of a merge_move_patches state: the anchor and every
queued candidate name an existing component, the anchor is not its own
candidate, the distance matrix is square of the component count, and its
diagonal is +infinity. -/
def MergeInv (s : MergeState) : Prop :=
  s.cluster < s.vb.muhat.length ∧
  (∀ j ∈ s.queue, j < s.vb.muhat.length) ∧
  s.cluster ∉ s.queue ∧
  s.maha.length = s.vb.muhat.length ∧
  (∀ r ∈ s.maha, r.length = s.vb.muhat.length) ∧
  (∀ i, i < s.vb.muhat.length → mahaAt s.maha i i = EDist.inf)

instance (s : MergeState) : Decidable (MergeInv s) := by
  unfold MergeInv
  infer_instance

/-- Concrete 3-component, 1-dimensional global mixture state (means 0, 3
and 1, unit precisions) used to exercise the merge loop. -/
def vb3 : VbParamC :=
  { muhat := [[0], [3], [1]]
    Vhat := [[[1]], [[1]], [[1]]]
    invVhat := [[[1]], [[1]], [[1]]]
    nuhat := [1, 1, 1]
    lambdahat := [1, 1, 1]
    ahat := [1, 1, 1]
    rhat := [[1, 0, 0], [0, 1, 0], [0, 0, 1]] }

/-- The merge state for anchor 0 of vb3 with its gated candidate queue
(np.where(maha[0] < 15) = [1, 2], consumed from the tail). -/
def sCE : MergeState :=
  { vb := vb3, maha := calculate_maha_clusters vb3, queue := [1, 2], cluster := 0 }

/-- Merged parameters (mean 3/2, unit precision) an accepting check_merge
call returns for the pair (0, 1) of vb3. -/
def pCE : MergedParams :=
  { mu := [3/2], V := [[1]], invV := [[1]], nu := 1, lam := 2, a := 2 }

/-- Merge-test oracle that rejects the first candidate pair and accepts the
second with pCE. -/
def oracleC4 : ℕ → MergeAnswer :=
  fun t => if t = 0 then MergeAnswer.reject
    else if t = 1 then MergeAnswer.accept pCE else MergeAnswer.reject

/-- Merge-test oracle whose every call raises (a collaborator failure). -/
def oracleFail : ℕ → MergeAnswer := fun _ => MergeAnswer.fail

/-- Merge-test oracle that rejects every candidate pair. -/
def oracleRej : ℕ → MergeAnswer := fun _ => MergeAnswer.reject

/-- Concrete 2-component, 1-dimensional mixture state used to instantiate
the accepted-merge bookkeeping theorem. -/
def vbW2 : VbParamC :=
  { muhat := [[1], [2]]
    Vhat := [[[1]], [[2]]]
    invVhat := [[[1]], [[1/2]]]
    nuhat := [1, 2]
    lambdahat := [3, 4]
    ahat := [5, 6]
    rhat := [[1/2, 1/2], [1, 0], [0, 1]] }

/-- Concrete merged parameters for the vbW2 instantiation. -/
def pW2 : MergedParams :=
  { mu := [3/2], V := [[3]], invV := [[1/3]], nu := 3, lam := 7, a := 11 }

/-- Concrete fitter output with one component and total responsibility mass
2: pruning at min_spikes = 5 leaves zero components. -/
def vbSmall : VbParamC :=
  { muhat := [[0]], Vhat := [[[1]]], invVhat := [[[1]]]
    nuhat := [1], lambdahat := [1], ahat := [1], rhat := [[1], [1]] }

/-- Mixture-fitter oracle returning vbSmall for every channel. -/
def fitC5 : ℕ → List (List ℚ) → VbParamC := fun _ _ => vbSmall

/-- Two-spike channel feature block for the run_cluster counterexample. -/
def scC5 : List (List ℚ) := [[1], [2]]

/-- Spike references matching scC5. -/
def siC5 : List (ℕ × ℕ) := [(0, 0), (1, 0)]

/-- Concrete one-component channel contribution (2 spikes on channel 0). -/
def cfA : ChanFold :=
  { ch := 0
    vb := { muhat := [[0]], Vhat := [[[1]]], invVhat := [[[1]]]
            nuhat := [1], lambdahat := [1], ahat := [1], rhat := [[1], [1]] }
    score := [[1], [2]]
    spikeIndex := [(10, 0), (20, 0)] }

/-- Concrete two-component channel contribution (2 spikes on channel 1). -/
def cfB : ChanFold :=
  { ch := 1
    vb := { muhat := [[1], [2]], Vhat := [[[1]], [[1]]], invVhat := [[[1]], [[1]]]
            nuhat := [1, 1], lambdahat := [1, 1], ahat := [1, 1]
            rhat := [[1, 0], [0, 1]] }
    score := [[3], [4]]
    spikeIndex := [(30, 1), (40, 1)] }

/-- The two-channel fold input used to instantiate the aggregation theorems. -/
def csW : List ChanFold := [cfA, cfB]

/-- Refit oracle for the run_mfm witness: a single-component matrix of full
responsibilities at every round. -/
def oracleMfmW : ℕ → ℕ → List (List ℚ) := fun _ n => (List.range n).map (fun _ => [1])

/-- Concrete run_mfm loop state used to instantiate the stability-loop
theorem: 40 retained points, a one-component full-responsibility fit, no
groups extracted yet. -/
def stW8 : MfmState := ⟨List.range 40, (List.range 40).map (fun _ => [1]), []⟩

/-- Valid fitter responsibility matrix used to instantiate the amended
post-processing theorem. -/
def rhatW1 : List (List ℚ) := [[1/2, 1/2], [3/4, 1/4]]

/-- A list of nonnegative rationals has nonnegative sum. -/
lemma sum_nonneg_list {l : List ℚ} (h : ∀ x ∈ l, 0 ≤ x) : 0 ≤ l.sum := by
  induction l with
  | nil => simp
  | cons b t ih =>
    rw [List.sum_cons]
    exact add_nonneg (h b (by simp)) (ih fun x hx => h x (by simp [hx]))

/-- A member of a list of nonnegative rationals is at most the list sum. -/
lemma elem_le_sum_of_nonneg {l : List ℚ} (h : ∀ x ∈ l, 0 ≤ x) {a : ℚ} (ha : a ∈ l) :
    a ≤ l.sum := by
  induction l with
  | nil => cases ha
  | cons b t ih =>
    rw [List.sum_cons]
    rcases List.mem_cons.mp ha with rfl | ha
    · exact le_add_of_nonneg_right (sum_nonneg_list fun x hx => h x (by simp [hx]))
    · exact le_trans (ih (fun x hx => h x (by simp [hx])) ha)
        (le_add_of_nonneg_left (h b (by simp)))

/-- Dividing every entry of a list divides its sum. -/
lemma sum_map_div (l : List ℚ) (s : ℚ) : (l.map (fun x => x / s)).sum = l.sum / s := by
  induction l with
  | nil => simp
  | cons a t ih => simp [ih, add_div]

/-- A spike row with nonnegative entries, one of which is at or above the
0.1 floor, post-processes to finite values that sum to exactly 1. -/
lemma postprocess_row_ok (r : List ℚ) (hnn : ∀ x ∈ r, 0 ≤ x)
    (hs : ∃ x ∈ r, 1/10 ≤ x) :
    (∀ v ∈ normalizeRowR (thresholdRow r), v.isFiniteV = true) ∧
    ((normalizeRowR (thresholdRow r)).map RVal.toQ).sum = 1 := by
  obtain ⟨x, hx, hxle⟩ := hs
  have hx1 : x ∈ thresholdRow r := by
    rw [thresholdRow]
    exact List.mem_map.mpr ⟨x, hx, if_neg (not_lt.mpr hxle)⟩
  have hnn1 : ∀ y ∈ thresholdRow r, 0 ≤ y := by
    intro y hy
    rcases List.mem_map.mp hy with ⟨z, hz, rfl⟩
    by_cases h : z < 1/10
    · rw [if_pos h]
    · rw [if_neg h]
      exact hnn z hz
  have hsum : (1:ℚ)/10 ≤ (thresholdRow r).sum :=
    le_trans hxle (elem_le_sum_of_nonneg hnn1 hx1)
  have hspos : 0 < (thresholdRow r).sum := lt_of_lt_of_le (by norm_num) hsum
  have hsne : (thresholdRow r).sum ≠ 0 := ne_of_gt hspos
  constructor
  · intro v hv
    rcases List.mem_map.mp hv with ⟨y, _, rfl⟩
    simp [ieeeDiv, hsne, RVal.isFiniteV]
  · have hmap : (normalizeRowR (thresholdRow r)).map RVal.toQ =
        (thresholdRow r).map (fun y => y / (thresholdRow r).sum) := by
      rw [normalizeRowR, List.map_map]
      refine List.map_congr_left ?_
      intro y _
      simp [Function.comp, ieeeDiv, hsne, RVal.toQ]
    rw [hmap, sum_map_div, div_self hsne]

/-- Claim C1: refuted.  The single-spike responsibility matrix rhatC1 is a
legitimate fitter output (entries in [0,1], row summing to 1) whose row
falls entirely below the 0.1 floor, so the unguarded re-normalization of
run_cluster / run_cluster_location (util.py lines 75-77 and 145-147)
divides by a zero row sum and a NaN propagates into the post-processed
responsibility matrix. -/
theorem C1_counterexample :
    (∀ r ∈ rhatC1, r.sum = 1 ∧ ∀ x ∈ r, 0 ≤ x ∧ x ≤ 1) ∧
    (∃ r ∈ rhatC1.map thresholdRow, r.sum = 0) ∧
    hasNonfinite (postprocess_rhat rhatC1) = true := by decide

/-- Claim C1, amended: the post-processing has no all-zero-row guard, so
freedom from division faults holds exactly on inputs where every spike row
keeps at least one entry at or above the 0.1 floor; for those inputs no
NaN or infinity arises and every row re-normalizes to sum exactly 1. -/
theorem C1_amended (rhat : List (List ℚ))
    (hnn : ∀ r ∈ rhat, ∀ x ∈ r, 0 ≤ x)
    (hsurv : ∀ r ∈ rhat, ∃ x ∈ r, 1/10 ≤ x) :
    hasNonfinite (postprocess_rhat rhat) = false ∧
    ∀ r ∈ postprocess_rhat rhat, (r.map RVal.toQ).sum = 1 := by
  constructor
  · rw [hasNonfinite, List.any_eq_false]
    intro row hrow
    rcases List.mem_map.mp hrow with ⟨r, hr, rfl⟩
    rw [Bool.not_eq_true, List.any_eq_false]
    intro v hv
    have hfin := (postprocess_row_ok r (hnn r hr) (hsurv r hr)).1 v hv
    simp [hfin]
  · intro row hrow
    rcases List.mem_map.mp hrow with ⟨r, hr, rfl⟩
    exact (postprocess_row_ok r (hnn r hr) (hsurv r hr)).2

/-- Witness instantiating C1_amended on the concrete matrix rhatW1. -/
theorem C1_witness :
    ((∀ r ∈ rhatW1, ∀ x ∈ r, 0 ≤ x) ∧ (∀ r ∈ rhatW1, ∃ x ∈ r, 1/10 ≤ x)) ∧
    (hasNonfinite (postprocess_rhat rhatW1) = false ∧
      ∀ r ∈ postprocess_rhat rhatW1, (r.map RVal.toQ).sum = 1) :=
  ⟨⟨by decide, by decide⟩, C1_amended rhatW1 (by decide) (by decide)⟩

/-- Claim C9: refuted.  On wfC9 the source's amplitude ranking (maximum
absolute value of the mean waveform, util.py line 656) and the claim's
peak-to-peak ranking select different channels, so the resulting
feature-channel sets differ: the source selects channel 0 (max abs 3 over
5/2), the claim's wording selects channel 1 (ptp 9/2 over 1). -/
theorem C9_counterexample :
    run_cluster_features_featchans 1 wfC9 0 1 = [0] ∧
    featchans_claimC9 1 wfC9 0 1 = [1] ∧
    run_cluster_features_featchans 1 wfC9 0 1 ≠ featchans_claimC9 1 wfC9 0 1 := by
  decide

/-- Claim C5: refuted for run_cluster.  With the concrete fitter fitC5 the
channel has 2 spikes, post-processing leaves a valid state, and pruning at
min_spikes = 5 removes the only component; run_cluster still folds the
channel into the aggregator (util.py lines 82-89 have no component-count
guard), changing the global state from None. -/
theorem C5_counterexample :
    (clean_empty_cluster
      { fitC5 0 scC5 with rhat := postprocessQ (fitC5 0 scC5).rhat } 5).muhat.length = 0 ∧
    run_cluster_step fitC5 5 0 scC5 siC5 none ≠ none := by decide

/-- Claim C6: refuted.  merge_move_patches has no exception handler, so a
merge-test collaborator failure on the very first candidate pair of the
concrete state sCE propagates and the whole merge run crashes instead of
rejecting the pair and continuing. -/
theorem C6_counterexample : mergeLoop oracleFail 5 0 sCE = LoopRes.crash := by decide

/-- Claim C4: refuted in its permanence part.  Running merge_move_patches
on sCE with oracleC4 first rejects the pair (0, 2), setting both
directional entries to +infinity, and then accepts the merge of (0, 1);
the accepted merge deletes component 1 (so the former component 2 becomes
index 1) and recomputes the survivor's whole row and column, leaving the
previously rejected pair's two directional entries at the finite value 1/4.
The third conjunct confirms the two steps are exactly the first two
iterations of the loop on sCE. -/
theorem C4_counterexample :
    mahaAt (rejectStep sCE).maha 0 2 = EDist.inf ∧
    mahaAt (rejectStep sCE).maha 2 0 = EDist.inf ∧
    mergeLoop oracleC4 10 0 sCE = mergeLoop oracleC4 8 2 (acceptStep (rejectStep sCE) pCE) ∧
    mahaAt (acceptStep (rejectStep sCE) pCE).maha 0 1 = EDist.fin (1/4) ∧
    mahaAt (acceptStep (rejectStep sCE) pCE).maha 1 0 = EDist.fin (1/4) := by decide

/-- Erasing index k does not move entries before k. -/
lemma get?_eraseIdx_lt {α : Type} :
    ∀ (l : List α) (k j : ℕ), j < k → (l.eraseIdx k).get? j = l.get? j
  | [], _, _, _ => by simp [List.eraseIdx]
  | _ :: _, 0, j, h => absurd h (Nat.not_lt_zero j)
  | _ :: _, k + 1, 0, _ => rfl
  | a :: t, k + 1, j + 1, h => by
    simpa [List.eraseIdx] using get?_eraseIdx_lt t k j (Nat.lt_of_succ_lt_succ h)

/-- Erasing index k shifts entries from k onwards down by one. -/
lemma get?_eraseIdx_ge {α : Type} :
    ∀ (l : List α) (k j : ℕ), k ≤ j → (l.eraseIdx k).get? j = l.get? (j + 1)
  | [], _, _, _ => by simp [List.eraseIdx]
  | _ :: _, 0, _, _ => rfl
  | _ :: _, k + 1, 0, h => absurd h (by omega)
  | a :: t, k + 1, j + 1, h => by
    simpa [List.eraseIdx] using get?_eraseIdx_ge t k j (Nat.le_of_succ_le_succ h)

/-- Summing a pointwise sum of two maps splits into two sums. -/
lemma sum_map_add {α : Type} (l : List α) (f g : α → ℚ) :
    (l.map (fun x => f x + g x)).sum = (l.map f).sum + (l.map g).sum := by
  induction l with
  | nil => simp
  | cons a t ih =>
    simp only [List.map_cons, List.sum_cons, ih]
    ring

/-- What delete-index-kb-then-write-index-ka does to one component-indexed
array, for ka < kb < length: the length drops by one, index ka holds the
new value, indices before kb other than ka are unmoved, and indices from kb
on are the old indices shifted down by one. -/
def eraseSetFacts {α : Type} (old new : List α) (x : α) (ka kb : ℕ) : Prop :=
  new.length + 1 = old.length ∧
  new.get? ka = some x ∧
  (∀ j, j ≠ ka → j < kb → new.get? j = old.get? j) ∧
  (∀ j, kb ≤ j → new.get? j = old.get? (j + 1))

/-- The generic fact behind every parameter-array update of an accepted
merge: `arr = np.delete(arr, kb, axis); arr[ka] = x`. -/
lemma eraseSet_facts {α : Type} (l : List α) (x : α) (ka kb : ℕ)
    (hab : ka < kb) (hK : kb < l.length) :
    eraseSetFacts l ((l.eraseIdx kb).set ka x) x ka kb := by
  have hlen : (l.eraseIdx kb).length + 1 = l.length := List.length_eraseIdx_add_one hK
  have hka : ka < (l.eraseIdx kb).length := by omega
  refine ⟨?_, ?_, ?_, ?_⟩
  · rw [List.length_set]
    exact hlen
  · exact List.get?_set_eq_of_lt x hka
  · intro j hj hjk
    rw [List.get?_set_ne x (l.eraseIdx kb) (fun h => hj h.symm),
      get?_eraseIdx_lt l kb j hjk]
  · intro j hj
    have hja : ka ≠ j := by omega
    rw [List.get?_set_ne x (l.eraseIdx kb) hja, get?_eraseIdx_ge l kb j hj]

/-- Mapping commutes with positional default reads inside the list. -/
lemma getD_map {α β : Type} (f : α → β) (l : List α) (i : ℕ) (hi : i < l.length)
    (d : β) (d2 : α) : (l.map f).getD i d = f (l.getD i d2) := by
  induction l generalizing i with
  | nil => cases hi
  | cons a t ih =>
    cases i with
    | zero => rfl
    | succ n => exact ih n (Nat.lt_of_succ_lt_succ hi)

/-- A positional default read inside the list is a member. -/
lemma getD_mem {α : Type} (l : List α) (i : ℕ) (d : α) (hi : i < l.length) :
    l.getD i d ∈ l := by
  rw [List.getD_eq_getElem l d hi]
  exact List.getElem_mem hi

/-- Claim C2: for every merge accepted by merge_move_patches with surviving
index ka = min(pair) and removed index kb = max(pair), every
component-indexed parameter array (muhat, Vhat, invVhat, nuhat, lambdahat,
ahat) loses exactly the kb entry and carries the merged parameters at index
ka, the responsibility column ka becomes the elementwise sum of the former
ka and kb columns, the component count drops by exactly 1, and the
survivor's total responsibility mass is the sum of the two merged masses. -/
theorem C2_merge_bookkeeping (vb : VbParamC) (p : MergedParams) (ka kb : ℕ)
    (hab : ka < kb) (hK : kb < vb.muhat.length)
    (hV : vb.Vhat.length = vb.muhat.length)
    (hiV : vb.invVhat.length = vb.muhat.length)
    (hnu : vb.nuhat.length = vb.muhat.length)
    (hlam : vb.lambdahat.length = vb.muhat.length)
    (hah : vb.ahat.length = vb.muhat.length)
    (hr : ∀ r ∈ vb.rhat, r.length = vb.muhat.length) :
    eraseSetFacts vb.muhat (mergeAcceptVb vb ka kb p).muhat p.mu ka kb ∧
    eraseSetFacts vb.Vhat (mergeAcceptVb vb ka kb p).Vhat p.V ka kb ∧
    eraseSetFacts vb.invVhat (mergeAcceptVb vb ka kb p).invVhat p.invV ka kb ∧
    eraseSetFacts vb.nuhat (mergeAcceptVb vb ka kb p).nuhat p.nu ka kb ∧
    eraseSetFacts vb.lambdahat (mergeAcceptVb vb ka kb p).lambdahat p.lam ka kb ∧
    eraseSetFacts vb.ahat (mergeAcceptVb vb ka kb p).ahat p.a ka kb ∧
    (mergeAcceptVb vb ka kb p).muhat.length + 1 = vb.muhat.length ∧
    (mergeAcceptVb vb ka kb p).rhat.length = vb.rhat.length ∧
    (∀ i, i < vb.rhat.length →
      colVal (mergeAcceptVb vb ka kb p).rhat i ka =
        colVal vb.rhat i ka + colVal vb.rhat i kb) ∧
    colSum (mergeAcceptVb vb ka kb p).rhat ka = colSum vb.rhat ka + colSum vb.rhat kb := by
  have hrow : ∀ r ∈ vb.rhat,
      ((r.set ka (r.getD ka 0 + r.getD kb 0)).eraseIdx kb).getD ka 0 =
        r.getD ka 0 + r.getD kb 0 := by
    intro r hrm
    have hlenr : r.length = vb.muhat.length := hr r hrm
    have hka : ka < r.length := by omega
    have h1 : ((r.set ka (r.getD ka 0 + r.getD kb 0)).eraseIdx kb).get? ka =
        (r.set ka (r.getD ka 0 + r.getD kb 0)).get? ka :=
      get?_eraseIdx_lt _ kb ka hab
    have h2 : (r.set ka (r.getD ka 0 + r.getD kb 0)).get? ka =
        some (r.getD ka 0 + r.getD kb 0) := List.get?_set_eq_of_lt _ hka
    have : ((r.set ka (r.getD ka 0 + r.getD kb 0)).eraseIdx kb).get? ka =
        some (r.getD ka 0 + r.getD kb 0) := h1.trans h2
    rw [List.getD, this]
    rfl
  refine ⟨eraseSet_facts _ _ _ _ hab hK,
    eraseSet_facts _ _ _ _ hab (by omega),
    eraseSet_facts _ _ _ _ hab (by omega),
    eraseSet_facts _ _ _ _ hab (by omega),
    eraseSet_facts _ _ _ _ hab (by omega),
    eraseSet_facts _ _ _ _ hab (by omega),
    ?_, ?_, ?_, ?_⟩
  · rw [mergeAcceptVb]
    simp only [List.length_set]
    exact List.length_eraseIdx_add_one hK
  · rw [mergeAcceptVb]
    exact List.length_map _ _
  · intro i hi
    have hmem : vb.rhat.getD i [] ∈ vb.rhat := getD_mem vb.rhat i [] hi
    simp only [colVal, mergeAcceptVb]
    rw [getD_map (fun r => (r.set ka (r.getD ka 0 + r.getD kb 0)).eraseIdx kb)
      vb.rhat i hi [] []]
    exact hrow _ hmem
  · rw [colSum, colSum, colSum, mergeAcceptVb]
    simp only [List.map_map]
    have : vb.rhat.map ((fun r => r.getD ka 0) ∘
        (fun r => (r.set ka (r.getD ka 0 + r.getD kb 0)).eraseIdx kb)) =
        vb.rhat.map (fun r => r.getD ka 0 + r.getD kb 0) := by
      refine List.map_congr_left ?_
      intro r hrm
      simpa using hrow r hrm
    rw [this, sum_map_add]

/-- Witness instantiating C2_merge_bookkeeping on vbW2 with pair (0, 1). -/
theorem C2_witness :
    ((0:ℕ) < 1 ∧ 1 < vbW2.muhat.length ∧
      vbW2.Vhat.length = vbW2.muhat.length ∧
      vbW2.invVhat.length = vbW2.muhat.length ∧
      vbW2.nuhat.length = vbW2.muhat.length ∧
      vbW2.lambdahat.length = vbW2.muhat.length ∧
      vbW2.ahat.length = vbW2.muhat.length ∧
      (∀ r ∈ vbW2.rhat, r.length = vbW2.muhat.length)) ∧
    (eraseSetFacts vbW2.muhat (mergeAcceptVb vbW2 0 1 pW2).muhat pW2.mu 0 1 ∧
      eraseSetFacts vbW2.Vhat (mergeAcceptVb vbW2 0 1 pW2).Vhat pW2.V 0 1 ∧
      eraseSetFacts vbW2.invVhat (mergeAcceptVb vbW2 0 1 pW2).invVhat pW2.invV 0 1 ∧
      eraseSetFacts vbW2.nuhat (mergeAcceptVb vbW2 0 1 pW2).nuhat pW2.nu 0 1 ∧
      eraseSetFacts vbW2.lambdahat (mergeAcceptVb vbW2 0 1 pW2).lambdahat pW2.lam 0 1 ∧
      eraseSetFacts vbW2.ahat (mergeAcceptVb vbW2 0 1 pW2).ahat pW2.a 0 1 ∧
      (mergeAcceptVb vbW2 0 1 pW2).muhat.length + 1 = vbW2.muhat.length ∧
      (mergeAcceptVb vbW2 0 1 pW2).rhat.length = vbW2.rhat.length ∧
      (∀ i, i < vbW2.rhat.length →
        colVal (mergeAcceptVb vbW2 0 1 pW2).rhat i 0 =
          colVal vbW2.rhat i 0 + colVal vbW2.rhat i 1) ∧
      colSum (mergeAcceptVb vbW2 0 1 pW2).rhat 0 =
        colSum vbW2.rhat 0 + colSum vbW2.rhat 1) :=
  ⟨⟨by decide, by decide, by decide, by decide, by decide, by decide, by decide, by decide⟩,
    C2_merge_bookkeeping vbW2 pW2 0 1 (by decide) (by decide) (by decide) (by decide)
      (by decide) (by decide) (by decide) (by decide)⟩

/-- Index of the old matrix a post-deletion index refers to: deleting index
kb leaves indices below kb in place and shifts the ones above down by one. -/
def adjIdx (kb j : ℕ) : ℕ := if j < kb then j else j + 1

/-- getD reads through get?. -/
lemma getD_eq {α : Type} (l : List α) (i : ℕ) (d : α) : l.getD i d = (l.get? i).getD d := rfl

/-- Reading a list after eraseIdx is reading the original at the adjusted
index. -/
lemma getD_eraseIdx {α : Type} (r : List α) (d : α) (kb j : ℕ) :
    (r.eraseIdx kb).getD j d = r.getD (adjIdx kb j) d := by
  rw [adjIdx]
  by_cases h : j < kb
  · rw [if_pos h, getD_eq, getD_eq, get?_eraseIdx_lt r kb j h]
  · rw [if_neg h, getD_eq, getD_eq, get?_eraseIdx_ge r kb j (by omega)]

/-- Setting another position does not change a getD read. -/
lemma getD_set_ne {α : Type} (l : List α) (x : α) (k j : ℕ) (h : k ≠ j) (d : α) :
    (l.set k x).getD j d = l.getD j d := by
  rw [getD_eq, getD_eq, List.get?_set_ne x l h]

/-- Setting an in-range position makes getD read the new value. -/
lemma getD_set_eq {α : Type} (l : List α) (x : α) (k : ℕ) (h : k < l.length) (d : α) :
    (l.set k x).getD k d = x := by
  rw [getD_eq, List.get?_set_eq_of_lt x h]
  rfl

/-- Setting an out-of-range position leaves getD at the default. -/
lemma getD_set_oor {α : Type} (l : List α) (x : α) (k : ℕ) (h : ¬ k < l.length) (d : α) :
    (l.set k x).getD k d = d := by
  rw [getD_eq]
  have : (l.set k x).get? k = none := by
    rw [List.get?_eq_none]
    rw [List.length_set]
    omega
  rw [this]
  rfl

/-- The final diagonal write of an accepted merge always leaves the
survivor's self-distance at +infinity. -/
lemma mahaAt_set_diag (m : List (List EDist)) (ka : ℕ) :
    mahaAt (m.set ka ((m.getD ka []).set ka EDist.inf)) ka ka = EDist.inf := by
  by_cases h : ka < m.length
  · rw [mahaAt, getD_set_eq m _ ka h]
    by_cases h2 : ka < (m.getD ka []).length
    · rw [getD_set_eq _ _ ka h2]
    · rw [getD_set_oor _ _ ka h2]
  · rw [mahaAt, getD_set_oor m _ ka h]
    rfl

/-- Reading a mapped enumeration at an in-range position. -/
lemma getD_enumMap {α β : Type} (l : List α) (f : ℕ × α → β) (i : ℕ)
    (hi : i < l.length) (d : β) (d2 : α) :
    (l.enum.map f).getD i d = f (i, l.getD i d2) := by
  rw [getD_eq, List.get?_map, List.get?_eq_getElem?, List.getElem?_enum]
  rw [List.getElem?_eq_getElem hi]
  rw [getD_eq, List.get?_eq_getElem?, List.getElem?_eq_getElem hi]
  rfl

/-- The second component of an enumFrom member is a list member. -/
lemma snd_mem_enumFrom {α : Type} :
    ∀ (l : List α) (n : ℕ) (p : ℕ × α), p ∈ List.enumFrom n l → p.2 ∈ l
  | [], _, _, h => absurd h (by simp)
  | a :: t, n, p, h => by
    rcases List.mem_cons.mp h with rfl | h
    · exact List.mem_cons_self a t
    · exact List.mem_cons_of_mem a (snd_mem_enumFrom t (n + 1) p h)

/-- The last element read by the merge loop is a queue member. -/
lemma getLastD_mem {α : Type} {l : List α} (h : l ≠ []) (d : α) : l.getLastD d ∈ l := by
  rw [List.getLastD_eq_getLast?, List.getLast?_eq_getLast l h]
  exact List.getLast_mem h

/-- Under the loop invariant the candidate pair names two distinct existing
components, so its min is strictly below its max and both are in range. -/
lemma merge_pair_bounds (s : MergeState) (hinv : MergeInv s) (hq : s.queue ≠ []) :
    min s.cluster (s.queue.getLastD 0) < max s.cluster (s.queue.getLastD 0) ∧
    max s.cluster (s.queue.getLastD 0) < s.vb.muhat.length := by
  obtain ⟨hcl, hqb, hcq, _, _, _⟩ := hinv
  have hi : s.queue.getLastD 0 ∈ s.queue := getLastD_mem hq 0
  have hne : s.cluster ≠ s.queue.getLastD 0 := fun h => hcq (h ▸ hi)
  exact ⟨min_lt_max.mpr hne, max_lt hcl (hqb _ hi)⟩

/-- Deleting component kb from every parameter array drops the component
count by exactly one. -/
lemma mergeAcceptVb_len (vb : VbParamC) (ka kb : ℕ) (p : MergedParams)
    (h : kb < vb.muhat.length) :
    (mergeAcceptVb vb ka kb p).muhat.length + 1 = vb.muhat.length := by
  rw [mergeAcceptVb]
  simp only [List.length_set]
  exact List.length_eraseIdx_add_one h

/-- The getLastD-selected pair of acceptStep computes mergeAcceptMaha with
the min/max indices of the anchor and the last queued candidate. -/
lemma acceptStep_maha_eq (s : MergeState) (p : MergedParams) (ka kb : ℕ)
    (hka : ka = min s.cluster (s.queue.getLastD 0))
    (hkb : kb = max s.cluster (s.queue.getLastD 0)) :
    (acceptStep s p).maha =
      mergeAcceptMaha s.maha (mergeAcceptVb s.vb ka kb p) ka kb p := by
  subst hka
  subst hkb
  rfl

/-- Entries outside the survivor's row and column are carried over from the
pre-merge distance matrix at the adjusted (pre-deletion) indices. -/
lemma acceptStep_maha_off (s : MergeState) (p : MergedParams) (ka kb : ℕ)
    (hka : ka = min s.cluster (s.queue.getLastD 0))
    (hkb : kb = max s.cluster (s.queue.getLastD 0))
    (hinv : MergeInv s) (hq : s.queue ≠ []) :
    ∀ i j, i < s.vb.muhat.length - 1 → i ≠ ka → j ≠ ka →
      mahaAt (acceptStep s p).maha i j = mahaAt s.maha (adjIdx kb i) (adjIdx kb j) := by
  intro i j hi hia hja
  obtain ⟨habk, hkbK⟩ := merge_pair_bounds s hinv hq
  have hab : ka < kb := by
    rw [hka, hkb]
    exact habk
  have hkb2 : kb < s.vb.muhat.length := by
    rw [hkb]
    exact hkbK
  obtain ⟨_, _, _, hmlen, _, _⟩ := hinv
  have hkbm : kb < s.maha.length := by omega
  have hm1len : ((s.maha.eraseIdx kb).map (fun r => r.eraseIdx kb)).length =
      s.vb.muhat.length - 1 := by
    rw [List.length_map]
    have := List.length_eraseIdx_add_one hkbm
    omega
  have him1 : i < ((s.maha.eraseIdx kb).map (fun r => r.eraseIdx kb)).length := by omega
  have hierase : i < (s.maha.eraseIdx kb).length := by
    rw [List.length_map] at him1
    exact him1
  rw [acceptStep_maha_eq s p ka kb hka hkb]
  simp only [mergeAcceptMaha]
  rw [mahaAt]
  rw [getD_set_ne _ _ ka i (fun h => hia h.symm)]
  have him2 : i < (((s.maha.eraseIdx kb).map (fun r => r.eraseIdx kb)).set ka
      ((mergeAcceptVb s.vb ka kb p).muhat.map (fun mu_j =>
        EDist.fin (quadForm (smulMat p.nu p.V) (subVec mu_j p.mu))))).length := by
    rw [List.length_set]
    exact him1
  rw [getD_enumMap _ _ i him2 [] []]
  rw [getD_set_ne _ _ ka j (fun h => hja h.symm)]
  rw [getD_set_ne _ _ ka i (fun h => hia h.symm)]
  rw [getD_map _ _ i hierase [] []]
  rw [getD_eraseIdx _ _ kb j]
  rw [getD_eraseIdx _ _ kb i]
  rfl

/-- The survivor's self-distance is +infinity after an accepted merge. -/
lemma acceptStep_maha_diag_ka (s : MergeState) (p : MergedParams) (ka kb : ℕ)
    (hka : ka = min s.cluster (s.queue.getLastD 0))
    (hkb : kb = max s.cluster (s.queue.getLastD 0)) :
    mahaAt (acceptStep s p).maha ka ka = EDist.inf := by
  rw [acceptStep_maha_eq s p ka kb hka hkb, mergeAcceptMaha]
  exact mahaAt_set_diag _ ka

/-- The whole diagonal is +infinity after an accepted merge. -/
lemma acceptStep_maha_diag (s : MergeState) (p : MergedParams) (ka kb : ℕ)
    (hka : ka = min s.cluster (s.queue.getLastD 0))
    (hkb : kb = max s.cluster (s.queue.getLastD 0))
    (hinv : MergeInv s) (hq : s.queue ≠ []) :
    ∀ i, i < s.vb.muhat.length - 1 → mahaAt (acceptStep s p).maha i i = EDist.inf := by
  intro i hi
  by_cases hia : i = ka
  · rw [hia]
    exact acceptStep_maha_diag_ka s p ka kb hka hkb
  · rw [acceptStep_maha_off s p ka kb hka hkb hinv hq i i hi hia hia]
    obtain ⟨_, _, hkbK⟩ := And.intro trivial (merge_pair_bounds s hinv hq)
    have hdiag := hinv.2.2.2.2.2
    refine hdiag (adjIdx kb i) ?_
    rw [← hkb] at hkbK
    rw [adjIdx]
    by_cases h : i < kb
    · rw [if_pos h]
      omega
    · rw [if_neg h]
      omega

/-- The component fields of acceptStep. -/
lemma acceptStep_vb_eq (s : MergeState) (p : MergedParams) (ka kb : ℕ)
    (hka : ka = min s.cluster (s.queue.getLastD 0))
    (hkb : kb = max s.cluster (s.queue.getLastD 0)) :
    (acceptStep s p).vb = mergeAcceptVb s.vb ka kb p := by
  subst hka
  subst hkb
  rfl

/-- The anchor after an accepted merge is the surviving lower index. -/
lemma acceptStep_cluster_eq (s : MergeState) (p : MergedParams) (ka kb : ℕ)
    (hka : ka = min s.cluster (s.queue.getLastD 0))
    (hkb : kb = max s.cluster (s.queue.getLastD 0)) :
    (acceptStep s p).cluster = ka := by
  subst hka
  subst hkb
  rfl

/-- The rebuilt candidate queue after an accepted merge. -/
lemma acceptStep_queue_eq (s : MergeState) (p : MergedParams) (ka kb : ℕ)
    (hka : ka = min s.cluster (s.queue.getLastD 0))
    (hkb : kb = max s.cluster (s.queue.getLastD 0)) :
    (acceptStep s p).queue =
      (List.range (mergeAcceptVb s.vb ka kb p).muhat.length).filter (fun j =>
        (mahaAt (mergeAcceptMaha s.maha (mergeAcceptVb s.vb ka kb p) ka kb p) ka j).gate ||
        (mahaAt (mergeAcceptMaha s.maha (mergeAcceptVb s.vb ka kb p) ka kb p) j ka).gate) := by
  subst hka
  subst hkb
  rfl

/-- Dimensions of the distance matrix after an accepted merge: it stays
square of the (decremented) component count. -/
lemma acceptStep_maha_dims (s : MergeState) (p : MergedParams) (ka kb : ℕ)
    (hka : ka = min s.cluster (s.queue.getLastD 0))
    (hkb : kb = max s.cluster (s.queue.getLastD 0))
    (hinv : MergeInv s) (hq : s.queue ≠ []) :
    (acceptStep s p).maha.length = s.vb.muhat.length - 1 ∧
    (∀ r ∈ (acceptStep s p).maha, r.length = s.vb.muhat.length - 1) := by
  obtain ⟨habk, hkbK⟩ := merge_pair_bounds s hinv hq
  have hab : ka < kb := by
    rw [hka, hkb]
    exact habk
  have hkb2 : kb < s.vb.muhat.length := by
    rw [hkb]
    exact hkbK
  obtain ⟨_, _, _, hmlen, hrows, _⟩ := hinv
  have hkbm : kb < s.maha.length := by omega
  have hvb2len : (mergeAcceptVb s.vb ka kb p).muhat.length + 1 = s.vb.muhat.length :=
    mergeAcceptVb_len s.vb ka kb p hkb2
  rw [acceptStep_maha_eq s p ka kb hka hkb]
  simp only [mergeAcceptMaha]
  have hm1len : ((s.maha.eraseIdx kb).map (fun r => r.eraseIdx kb)).length =
      s.vb.muhat.length - 1 := by
    rw [List.length_map]
    have := List.length_eraseIdx_add_one hkbm
    omega
  have hm1rows : ∀ r ∈ (s.maha.eraseIdx kb).map (fun r => r.eraseIdx kb),
      r.length = s.vb.muhat.length - 1 := by
    intro r hr
    rcases List.mem_map.mp hr with ⟨r0, hr0, rfl⟩
    have hr0m : r0 ∈ s.maha := (List.eraseIdx_sublist s.maha kb).subset hr0
    have : (r0.eraseIdx kb).length + 1 = r0.length :=
      List.length_eraseIdx_add_one (by rw [hrows r0 hr0m]; omega)
    have hl := hrows r0 hr0m
    omega
  have hnewlen : ((mergeAcceptVb s.vb ka kb p).muhat.map (fun mu_j =>
      EDist.fin (quadForm (smulMat p.nu p.V) (subVec mu_j p.mu)))).length =
      s.vb.muhat.length - 1 := by
    rw [List.length_map]
    omega
  have hm2rows : ∀ r ∈ ((s.maha.eraseIdx kb).map (fun r => r.eraseIdx kb)).set ka
      ((mergeAcceptVb s.vb ka kb p).muhat.map (fun mu_j =>
        EDist.fin (quadForm (smulMat p.nu p.V) (subVec mu_j p.mu)))),
      r.length = s.vb.muhat.length - 1 := by
    intro r hr
    rcases List.mem_or_eq_of_mem_set hr with hr1 | rfl
    · exact hm1rows r hr1
    · exact hnewlen
  have hm2len : (((s.maha.eraseIdx kb).map (fun r => r.eraseIdx kb)).set ka
      ((mergeAcceptVb s.vb ka kb p).muhat.map (fun mu_j =>
        EDist.fin (quadForm (smulMat p.nu p.V) (subVec mu_j p.mu))))).length =
      s.vb.muhat.length - 1 := by
    rw [List.length_set]
    exact hm1len
  have hm3rows : ∀ r ∈ (((s.maha.eraseIdx kb).map (fun r => r.eraseIdx kb)).set ka
      ((mergeAcceptVb s.vb ka kb p).muhat.map (fun mu_j =>
        EDist.fin (quadForm (smulMat p.nu p.V) (subVec mu_j p.mu))))).enum.map (fun pr =>
          pr.2.set ka (EDist.fin (quadForm
            (smulMat ((mergeAcceptVb s.vb ka kb p).nuhat.getD pr.1 0)
              ((mergeAcceptVb s.vb ka kb p).Vhat.getD pr.1 []))
            (subVec ((mergeAcceptVb s.vb ka kb p).muhat.getD pr.1 []) p.mu)))),
      r.length = s.vb.muhat.length - 1 := by
    intro r hr
    rcases List.mem_map.mp hr with ⟨pr, hpr, rfl⟩
    rw [List.length_set]
    exact hm2rows pr.2 (snd_mem_enumFrom _ 0 pr hpr)
  have hm3len : ((((s.maha.eraseIdx kb).map (fun r => r.eraseIdx kb)).set ka
      ((mergeAcceptVb s.vb ka kb p).muhat.map (fun mu_j =>
        EDist.fin (quadForm (smulMat p.nu p.V) (subVec mu_j p.mu))))).enum.map (fun pr =>
          pr.2.set ka (EDist.fin (quadForm
            (smulMat ((mergeAcceptVb s.vb ka kb p).nuhat.getD pr.1 0)
              ((mergeAcceptVb s.vb ka kb p).Vhat.getD pr.1 []))
            (subVec ((mergeAcceptVb s.vb ka kb p).muhat.getD pr.1 []) p.mu))))).length =
      s.vb.muhat.length - 1 := by
    rw [List.length_map, List.enum_length]
    exact hm2len
  constructor
  · rw [List.length_set]
    exact hm3len
  · intro r hr
    rcases List.mem_or_eq_of_mem_set hr with hr1 | rfl
    · exact hm3rows r hr1
    · rw [List.length_set]
      have hkam : ka < s.vb.muhat.length - 1 := by omega
      refine hm3rows _ (getD_mem _ ka [] ?_)
      rw [hm3len]
      exact hkam

/-- An accepted merge preserves the loop invariant, drops the component
count by exactly one, and rebuilds a queue of at most component-count
candidates. -/
lemma acceptStep_inv (s : MergeState) (p : MergedParams)
    (hinv : MergeInv s) (hq : s.queue ≠ []) :
    MergeInv (acceptStep s p) ∧
    (acceptStep s p).vb.muhat.length + 1 = s.vb.muhat.length ∧
    (acceptStep s p).queue.length ≤ (acceptStep s p).vb.muhat.length := by
  have hka : min s.cluster (s.queue.getLastD 0) = min s.cluster (s.queue.getLastD 0) := rfl
  have hkb : max s.cluster (s.queue.getLastD 0) = max s.cluster (s.queue.getLastD 0) := rfl
  obtain ⟨habk, hkbK⟩ := merge_pair_bounds s hinv hq
  have hvb := acceptStep_vb_eq s p _ _ rfl rfl
  have hcl := acceptStep_cluster_eq s p _ _ rfl rfl
  have hqe := acceptStep_queue_eq s p _ _ rfl rfl
  have hdims := acceptStep_maha_dims s p _ _ rfl rfl hinv hq
  have hdiag := acceptStep_maha_diag s p _ _ rfl rfl hinv hq
  have hvlen : (mergeAcceptVb s.vb (min s.cluster (s.queue.getLastD 0))
      (max s.cluster (s.queue.getLastD 0)) p).muhat.length + 1 = s.vb.muhat.length :=
    mergeAcceptVb_len _ _ _ _ hkbK
  have hlen2 : (acceptStep s p).vb.muhat.length + 1 = s.vb.muhat.length := by
    rw [hvb]
    exact hvlen
  have hkaK : min s.cluster (s.queue.getLastD 0) < (acceptStep s p).vb.muhat.length := by
    omega
  refine ⟨⟨?_, ?_, ?_, ?_, ?_, ?_⟩, hlen2, ?_⟩
  · rw [hcl]
    exact hkaK
  · intro j hj
    rw [hqe] at hj
    have := (List.mem_filter.mp hj).1
    have hjr := List.mem_range.mp this
    rw [hvb]
    exact hjr
  · rw [hcl, hqe]
    intro hmem
    have hcond := (List.mem_filter.mp hmem).2
    have hdka : mahaAt (acceptStep s p).maha (min s.cluster (s.queue.getLastD 0))
        (min s.cluster (s.queue.getLastD 0)) = EDist.inf :=
      acceptStep_maha_diag_ka s p _ _ rfl rfl
    rw [acceptStep_maha_eq s p _ _ rfl rfl] at hdka
    rw [hdka] at hcond
    simp [EDist.gate] at hcond
  · rw [hdims.1]
    omega
  · intro r hr
    rw [hdims.2 r hr]
    omega
  · intro i hi
    refine hdiag i ?_
    omega
  · rw [hqe]
    have hfl : ((List.range (mergeAcceptVb s.vb (min s.cluster (s.queue.getLastD 0))
        (max s.cluster (s.queue.getLastD 0)) p).muhat.length).filter (fun j =>
        (mahaAt (mergeAcceptMaha s.maha (mergeAcceptVb s.vb (min s.cluster (s.queue.getLastD 0))
          (max s.cluster (s.queue.getLastD 0)) p) (min s.cluster (s.queue.getLastD 0))
          (max s.cluster (s.queue.getLastD 0)) p) (min s.cluster (s.queue.getLastD 0)) j).gate ||
        (mahaAt (mergeAcceptMaha s.maha (mergeAcceptVb s.vb (min s.cluster (s.queue.getLastD 0))
          (max s.cluster (s.queue.getLastD 0)) p) (min s.cluster (s.queue.getLastD 0))
          (max s.cluster (s.queue.getLastD 0)) p) j (min s.cluster (s.queue.getLastD 0))).gate)).length ≤
        (List.range (mergeAcceptVb s.vb (min s.cluster (s.queue.getLastD 0))
          (max s.cluster (s.queue.getLastD 0)) p).muhat.length).length :=
      List.length_filter_le _ _
    rw [List.length_range] at hfl
    rw [hvb]
    exact hfl

/-- A rejected merge leaves the mixture state and anchor unchanged, pops
the tail candidate, writes +infinity into both directional entries of the
pair, and preserves the loop invariant. -/
lemma rejectStep_inv (s : MergeState) (hinv : MergeInv s) (hq : s.queue ≠ []) :
    MergeInv (rejectStep s) ∧
    (rejectStep s).vb = s.vb ∧
    (rejectStep s).cluster = s.cluster ∧
    (rejectStep s).queue.length + 1 = s.queue.length ∧
    mahaAt (rejectStep s).maha (min s.cluster (s.queue.getLastD 0))
      (max s.cluster (s.queue.getLastD 0)) = EDist.inf ∧
    mahaAt (rejectStep s).maha (max s.cluster (s.queue.getLastD 0))
      (min s.cluster (s.queue.getLastD 0)) = EDist.inf := by
  obtain ⟨habk, hkbK⟩ := merge_pair_bounds s hinv hq
  obtain ⟨hclK, hqb, hcq, hmlen, hrows, hdiag⟩ := hinv
  have hkam : min s.cluster (s.queue.getLastD 0) < s.maha.length := by omega
  have hkbm : max s.cluster (s.queue.getLastD 0) < s.maha.length := by omega
  have hne : min s.cluster (s.queue.getLastD 0) ≠ max s.cluster (s.queue.getLastD 0) :=
    Nat.ne_of_lt habk
  have hrowka : s.maha.getD (min s.cluster (s.queue.getLastD 0)) [] ∈ s.maha :=
    getD_mem _ _ [] hkam
  have hrowkb : s.maha.getD (max s.cluster (s.queue.getLastD 0)) [] ∈ s.maha :=
    getD_mem _ _ [] hkbm
  have hm2 : (rejectStep s).maha =
      (s.maha.set (min s.cluster (s.queue.getLastD 0))
        ((s.maha.getD (min s.cluster (s.queue.getLastD 0)) []).set
          (max s.cluster (s.queue.getLastD 0)) EDist.inf)).set
        (max s.cluster (s.queue.getLastD 0))
        (((s.maha.set (min s.cluster (s.queue.getLastD 0))
          ((s.maha.getD (min s.cluster (s.queue.getLastD 0)) []).set
            (max s.cluster (s.queue.getLastD 0)) EDist.inf)).getD
          (max s.cluster (s.queue.getLastD 0)) []).set
          (min s.cluster (s.queue.getLastD 0)) EDist.inf) := rfl
  have hget_kb : ((s.maha.set (min s.cluster (s.queue.getLastD 0))
      ((s.maha.getD (min s.cluster (s.queue.getLastD 0)) []).set
        (max s.cluster (s.queue.getLastD 0)) EDist.inf)).getD
      (max s.cluster (s.queue.getLastD 0)) []) =
      s.maha.getD (max s.cluster (s.queue.getLastD 0)) [] :=
    getD_set_ne _ _ _ _ hne []
  refine ⟨⟨?_, ?_, ?_, ?_, ?_, ?_⟩, rfl, rfl, ?_, ?_, ?_⟩
  · exact hclK
  · intro j hj
    exact hqb j ((List.dropLast_sublist s.queue).subset hj)
  · intro hmem
    exact hcq ((List.dropLast_sublist s.queue).subset hmem)
  · rw [hm2, List.length_set, List.length_set]
    exact hmlen
  · intro r hr
    rw [hm2] at hr
    rcases List.mem_or_eq_of_mem_set hr with hr1 | rfl
    · rcases List.mem_or_eq_of_mem_set hr1 with hr2 | rfl
      · exact hrows r hr2
      · rw [List.length_set]
        exact hrows _ hrowka
    · rw [List.length_set, hget_kb]
      exact hrows _ hrowkb
  · intro x hx
    rw [hm2, mahaAt]
    by_cases hxkb : x = max s.cluster (s.queue.getLastD 0)
    · subst hxkb
      rw [getD_set_eq _ _ _ (by rw [List.length_set]; exact hkbm) []]
      rw [getD_set_ne _ _ _ _ hne EDist.inf, hget_kb]
      exact hdiag _ hx
    · rw [getD_set_ne _ _ _ _ (fun h => hxkb h.symm) []]
      by_cases hxka : x = min s.cluster (s.queue.getLastD 0)
      · subst hxka
        rw [getD_set_eq _ _ _ hkam []]
        rw [getD_set_ne _ _ _ _ (fun h => hne h.symm) EDist.inf]
        exact hdiag _ hx
      · rw [getD_set_ne _ _ _ _ (fun h => hxka h.symm) []]
        exact hdiag _ hx
  · rw [rejectStep]
    simp only [List.length_dropLast]
    have : 0 < s.queue.length := List.length_pos.mpr hq
    omega
  · rw [hm2, mahaAt]
    rw [getD_set_ne _ _ _ _ (fun h => hne h.symm) []]
    rw [getD_set_eq _ _ _ hkam []]
    rw [getD_set_eq _ _ _ (by rw [hrows _ hrowka]; omega) EDist.inf]
  · rw [hm2, mahaAt]
    rw [getD_set_eq _ _ _ (by rw [List.length_set]; exact hkbm) []]
    rw [hget_kb]
    rw [getD_set_eq _ _ _ (by rw [hrows _ hrowkb]; omega) EDist.inf]

/-- Fuel equal to K*(K+1) + queue length + 1 drains the merge loop: every
iteration either rejects (queue shrinks, components unchanged) or accepts
(components shrink, queue rebuilt below the component count). -/
lemma mergeLoop_drains (oracle : ℕ → MergeAnswer)
    (hnf : ∀ u, oracle u ≠ MergeAnswer.fail) :
    ∀ (m t : ℕ) (s : MergeState), MergeInv s →
      s.vb.muhat.length * (s.vb.muhat.length + 1) + s.queue.length ≤ m →
      ∃ sFin, mergeLoop oracle (m + 1) t s = LoopRes.out sFin ∧ sFin.queue = [] := by
  intro m
  induction m using Nat.strong_induction_on with
  | _ m ih =>
    intro t s hinv hm
    by_cases hq : s.queue = []
    · refine ⟨s, ?_, hq⟩
      rw [mergeLoop, if_pos hq]
    · have hqlen : 0 < s.queue.length := List.length_pos.mpr hq
      have hm1 : 1 ≤ m := by omega
      cases ho : oracle t with
      | fail => exact absurd ho (hnf t)
      | reject =>
        obtain ⟨hinv2, hvb2, _, hqlen2, _, _⟩ := rejectStep_inv s hinv hq
        have hmeas : (rejectStep s).vb.muhat.length *
            ((rejectStep s).vb.muhat.length + 1) + (rejectStep s).queue.length ≤ m - 1 := by
          rw [hvb2]
          omega
        obtain ⟨sF, hF, hFq⟩ := ih (m - 1) (by omega) (t + 1) (rejectStep s) hinv2 hmeas
        refine ⟨sF, ?_, hFq⟩
        rw [mergeLoop, if_neg hq, ho]
        have hm2 : m = (m - 1) + 1 := by omega
        rw [hm2]
        exact hF
      | accept p =>
        obtain ⟨hinv2, hlen2, hql2⟩ := acceptStep_inv s p hinv hq
        have hkey : (acceptStep s p).vb.muhat.length *
            ((acceptStep s p).vb.muhat.length + 1) + (acceptStep s p).queue.length + 1 ≤
            s.vb.muhat.length * (s.vb.muhat.length + 1) := by
          nlinarith [hlen2, hql2]
        have hmeas : (acceptStep s p).vb.muhat.length *
            ((acceptStep s p).vb.muhat.length + 1) + (acceptStep s p).queue.length ≤ m - 1 := by
          omega
        obtain ⟨sF, hF, hFq⟩ := ih (m - 1) (by omega) (t + 1) (acceptStep s p) hinv2 hmeas
        refine ⟨sF, ?_, hFq⟩
        rw [mergeLoop, if_neg hq, ho]
        have hm2 : m = (m - 1) + 1 := by omega
        rw [hm2]
        exact hF

/-- Claim C7: for every well-formed finite state and any accept/reject
answers from the external merge test, the candidate loop of
merge_move_patches terminates with its queue drained: each iteration
either accepts (strictly decreasing the component count, with the rebuilt
queue bounded by it) or rejects (dropping one queued candidate and setting
both directional entries of the pair to +infinity). -/
theorem C7_merge_loop_terminates (oracle : ℕ → MergeAnswer) (s : MergeState) (t : ℕ)
    (hnf : ∀ u, oracle u ≠ MergeAnswer.fail) (hinv : MergeInv s) :
    (∃ fuel sFin, mergeLoop oracle fuel t s = LoopRes.out sFin ∧ sFin.queue = []) ∧
    (∀ p, s.queue ≠ [] →
      (acceptStep s p).vb.muhat.length + 1 = s.vb.muhat.length ∧
      (acceptStep s p).queue.length ≤ (acceptStep s p).vb.muhat.length) ∧
    (s.queue ≠ [] →
      (rejectStep s).vb = s.vb ∧
      (rejectStep s).queue.length + 1 = s.queue.length ∧
      mahaAt (rejectStep s).maha (min s.cluster (s.queue.getLastD 0))
        (max s.cluster (s.queue.getLastD 0)) = EDist.inf ∧
      mahaAt (rejectStep s).maha (max s.cluster (s.queue.getLastD 0))
        (min s.cluster (s.queue.getLastD 0)) = EDist.inf) := by
  refine ⟨?_, ?_, ?_⟩
  · obtain ⟨sF, hF, hFq⟩ := mergeLoop_drains oracle hnf
      (s.vb.muhat.length * (s.vb.muhat.length + 1) + s.queue.length) t s hinv (le_refl _)
    exact ⟨_, sF, hF, hFq⟩
  · intro p hq
    obtain ⟨_, h1, h2⟩ := acceptStep_inv s p hinv hq
    exact ⟨h1, h2⟩
  · intro hq
    obtain ⟨_, h1, _, h2, h3, h4⟩ := rejectStep_inv s hinv hq
    exact ⟨h1, h2, h3, h4⟩

/-- Witness instantiating C7_merge_loop_terminates on sCE with the
all-reject oracle. -/
theorem C7_witness :
    ((∀ u, oracleRej u ≠ MergeAnswer.fail) ∧ MergeInv sCE) ∧
    ((∃ fuel sFin, mergeLoop oracleRej fuel 0 sCE = LoopRes.out sFin ∧ sFin.queue = []) ∧
      (∀ p, sCE.queue ≠ [] →
        (acceptStep sCE p).vb.muhat.length + 1 = sCE.vb.muhat.length ∧
        (acceptStep sCE p).queue.length ≤ (acceptStep sCE p).vb.muhat.length) ∧
      (sCE.queue ≠ [] →
        (rejectStep sCE).vb = sCE.vb ∧
        (rejectStep sCE).queue.length + 1 = sCE.queue.length ∧
        mahaAt (rejectStep sCE).maha (min sCE.cluster (sCE.queue.getLastD 0))
          (max sCE.cluster (sCE.queue.getLastD 0)) = EDist.inf ∧
        mahaAt (rejectStep sCE).maha (max sCE.cluster (sCE.queue.getLastD 0))
          (min sCE.cluster (sCE.queue.getLastD 0)) = EDist.inf)) :=
  ⟨⟨fun u => by simp [oracleRej], by decide⟩,
    C7_merge_loop_terminates oracleRej sCE 0 (fun u => by simp [oracleRej]) (by decide)⟩

/-- Claim C6, amended: merge_move_patches has no handler for a failing
merge-test collaborator, so a failure propagates and aborts the whole run
(first conjunct); only an explicit reject return is handled, by setting
both directional entries of the pair to +infinity, popping the candidate
and continuing with the remaining queue (remaining conjuncts). -/
theorem C6_amended :
    (∀ (oracle : ℕ → MergeAnswer) (t fuel : ℕ) (s : MergeState), s.queue ≠ [] →
      oracle t = MergeAnswer.fail → mergeLoop oracle (fuel + 1) t s = LoopRes.crash) ∧
    (∀ (oracle : ℕ → MergeAnswer) (t fuel : ℕ) (s : MergeState), s.queue ≠ [] →
      oracle t = MergeAnswer.reject →
      mergeLoop oracle (fuel + 1) t s = mergeLoop oracle fuel (t + 1) (rejectStep s)) ∧
    (∀ s : MergeState, MergeInv s → s.queue ≠ [] →
      (rejectStep s).queue.length + 1 = s.queue.length ∧
      mahaAt (rejectStep s).maha (min s.cluster (s.queue.getLastD 0))
        (max s.cluster (s.queue.getLastD 0)) = EDist.inf ∧
      mahaAt (rejectStep s).maha (max s.cluster (s.queue.getLastD 0))
        (min s.cluster (s.queue.getLastD 0)) = EDist.inf) := by
  refine ⟨?_, ?_, ?_⟩
  · intro oracle t fuel s hq ho
    rw [mergeLoop, if_neg hq, ho]
  · intro oracle t fuel s hq ho
    rw [mergeLoop, if_neg hq, ho]
  · intro s hinv hq
    obtain ⟨_, _, _, h2, h3, h4⟩ := rejectStep_inv s hinv hq
    exact ⟨h2, h3, h4⟩

/-- Witness instantiating C6_amended on sCE with the failing oracle. -/
theorem C6_witness :
    (sCE.queue ≠ [] ∧ oracleFail 0 = MergeAnswer.fail ∧ MergeInv sCE) ∧
    (mergeLoop oracleFail 5 0 sCE = LoopRes.crash ∧
      (rejectStep sCE).queue.length + 1 = sCE.queue.length) :=
  ⟨⟨by decide, by decide, by decide⟩,
    ⟨C6_amended.1 oracleFail 0 4 sCE (by decide) (by decide),
      (C6_amended.2.2 sCE (by decide) (by decide)).1⟩⟩

/-- Claim C4, amended: the distance matrix's diagonal is +infinity after
initial construction and after every accepted or rejected update (the loop
invariant, which includes the diagonal, is preserved by both steps); a
rejection sets both directional entries of its pair to +infinity; but the
entries of a rejected pair stay +infinity only while neither member is the
survivor of a later accepted merge — an accepted merge recomputes the
survivor's entire row and column (which can re-assign finite values there),
while every entry outside that row and column is carried over unchanged at
the adjusted indices. -/
theorem C4_amended :
    (∀ (vb : VbParamC) (i : ℕ), i < vb.muhat.length →
      mahaAt (calculate_maha_clusters vb) i i = EDist.inf) ∧
    (∀ (s : MergeState) (p : MergedParams), MergeInv s → s.queue ≠ [] →
      MergeInv (acceptStep s p)) ∧
    (∀ s : MergeState, MergeInv s → s.queue ≠ [] → MergeInv (rejectStep s)) ∧
    (∀ s : MergeState, MergeInv s → s.queue ≠ [] →
      mahaAt (rejectStep s).maha (min s.cluster (s.queue.getLastD 0))
        (max s.cluster (s.queue.getLastD 0)) = EDist.inf ∧
      mahaAt (rejectStep s).maha (max s.cluster (s.queue.getLastD 0))
        (min s.cluster (s.queue.getLastD 0)) = EDist.inf) ∧
    (∀ (s : MergeState) (p : MergedParams) (i j : ℕ), MergeInv s → s.queue ≠ [] →
      i < s.vb.muhat.length - 1 →
      i ≠ min s.cluster (s.queue.getLastD 0) →
      j ≠ min s.cluster (s.queue.getLastD 0) →
      mahaAt (acceptStep s p).maha i j =
        mahaAt s.maha (adjIdx (max s.cluster (s.queue.getLastD 0)) i)
          (adjIdx (max s.cluster (s.queue.getLastD 0)) j)) := by
  refine ⟨?_, ?_, ?_, ?_, ?_⟩
  · intro vb i hi
    rw [calculate_maha_clusters, mahaAt]
    rw [getD_enumMap _ _ i hi [] []]
    rw [getD_enumMap _ _ i hi EDist.inf []]
    rw [if_pos rfl]
  · intro s p hinv hq
    exact (acceptStep_inv s p hinv hq).1
  · intro s hinv hq
    exact (rejectStep_inv s hinv hq).1
  · intro s hinv hq
    obtain ⟨_, _, _, _, h3, h4⟩ := rejectStep_inv s hinv hq
    exact ⟨h3, h4⟩
  · intro s p i j hinv hq hi hia hja
    exact acceptStep_maha_off s p _ _ rfl rfl hinv hq i j hi hia hja

/-- Witness instantiating C4_amended on vb3 and sCE. -/
theorem C4_witness :
    ((0:ℕ) < vb3.muhat.length ∧ MergeInv sCE ∧ sCE.queue ≠ []) ∧
    (mahaAt (calculate_maha_clusters vb3) 0 0 = EDist.inf ∧
      MergeInv (rejectStep sCE) ∧
      MergeInv (acceptStep sCE pCE) ∧
      mahaAt (rejectStep sCE).maha (min sCE.cluster (sCE.queue.getLastD 0))
        (max sCE.cluster (sCE.queue.getLastD 0)) = EDist.inf) :=
  ⟨⟨by decide, by decide, by decide⟩,
    ⟨C4_amended.1 vb3 0 (by decide),
      C4_amended.2.2.1 sCE (by decide) (by decide),
      C4_amended.2.1 sCE pCE (by decide) (by decide),
      (C4_amended.2.2.2.1 sCE (by decide) (by decide)).1⟩⟩

/-- Claim C5, amended: in both orchestrators a channel with fewer than 2
spikes is skipped entirely (the global state is unchanged), and
run_cluster_location does not fold a channel whose post-pruning component
count is zero; run_cluster, however, folds every channel with at least 2
spikes into the aggregator unconditionally, even when pruning removed all
its components. -/
theorem C5_amended :
    (∀ (fit : ℕ → List (List ℚ) → VbParamC) (ms : ℚ) (ch : ℕ)
      (sc : List (List ℚ)) (si : List (ℕ × ℕ)) (g : Option GState),
      sc.length ≤ 1 →
      run_cluster_step fit ms ch sc si g = g ∧
      run_cluster_location_step fit ms ch sc si g = g) ∧
    (∀ (fit : ℕ → List (List ℚ) → VbParamC) (ms : ℚ) (ch : ℕ)
      (sc : List (List ℚ)) (si : List (ℕ × ℕ)) (g : Option GState),
      (clean_empty_cluster { fit ch sc with rhat := postprocessQ (fit ch sc).rhat }
        ms).muhat.length = 0 →
      run_cluster_location_step fit ms ch sc si g = g) ∧
    (∀ (fit : ℕ → List (List ℚ) → VbParamC) (ms : ℚ) (ch : ℕ)
      (sc : List (List ℚ)) (si : List (ℕ × ℕ)) (g : Option GState),
      1 < sc.length →
      run_cluster_step fit ms ch sc si g =
        some (global_cluster_info
          (clean_empty_cluster { fit ch sc with rhat := postprocessQ (fit ch sc).rhat } ms)
          ch sc si g)) := by
  refine ⟨?_, ?_, ?_⟩
  · intro fit ms ch sc si g hlen
    constructor
    · rw [run_cluster_step, if_neg (by omega)]
    · rw [run_cluster_location_step, if_neg (by omega)]
  · intro fit ms ch sc si g hzero
    rw [run_cluster_location_step]
    by_cases hlen : 1 < sc.length
    · rw [if_pos hlen]
      rw [if_neg (by rw [hzero]; omega)]
    · rw [if_neg hlen]
  · intro fit ms ch sc si g hlen
    rw [run_cluster_step, if_pos hlen]

/-- Witness instantiating C5_amended: a one-spike channel is skipped by
both orchestrators, and the two-spike channel scC5 is folded by
run_cluster_step. -/
theorem C5_witness :
    (([[ (1:ℚ) ]] : List (List ℚ)).length ≤ 1 ∧ 1 < scC5.length) ∧
    ((run_cluster_step fitC5 5 0 [[(1:ℚ)]] [(0,0)] none = none ∧
      run_cluster_location_step fitC5 5 0 [[(1:ℚ)]] [(0,0)] none = none) ∧
      run_cluster_step fitC5 5 0 scC5 siC5 none =
        some (global_cluster_info
          (clean_empty_cluster { fitC5 0 scC5 with rhat := postprocessQ (fitC5 0 scC5).rhat } 5)
          0 scC5 siC5 none)) :=
  ⟨⟨by decide, by decide⟩,
    ⟨C5_amended.1 fitC5 5 0 [[(1:ℚ)]] [(0,0)] none (by decide),
      C5_amended.2.2 fitC5 5 0 scC5 siC5 none (by decide)⟩⟩

/-- Ascending insertion keeps exactly the old members plus the new one. -/
lemma mem_insertNatAsc (x a : ℕ) (l : List ℕ) :
    a ∈ insertNatAsc x l ↔ a = x ∨ a ∈ l := by
  induction l with
  | nil => simp [insertNatAsc]
  | cons y ys ih =>
    rw [insertNatAsc]
    by_cases h : x ≤ y
    · rw [if_pos h]
      simp
    · rw [if_neg h]
      simp only [List.mem_cons, ih]
      tauto

/-- Insertion sort preserves membership. -/
lemma mem_sortNatAsc (a : ℕ) (l : List ℕ) : a ∈ sortNatAsc l ↔ a ∈ l := by
  induction l with
  | nil => simp [sortNatAsc]
  | cons x t ih =>
    show a ∈ insertNatAsc x (sortNatAsc t) ↔ _
    rw [mem_insertNatAsc, ih]
    simp

/-- Claim C9, amended: for every channel the feature-channel set is the
union of (a) the top n_max_chans channels ranked by MAXIMUM ABSOLUTE
amplitude of the mean waveform (the source ranks by np.max(np.abs(.)), not
by peak-to-peak) and (b) the top n_mad_chans channels ranked by
median-absolute-deviation, the latter ranking taken only among channels
whose mean-waveform peak-to-peak amplitude exceeds 2 signal units. -/
theorem C9_amended (c : ℚ) (wf : List (List (List ℚ))) (n_mad_chans n_max_chans x : ℕ) :
    x ∈ run_cluster_features_featchans c wf n_mad_chans n_max_chans ↔
      x ∈ maxChansOf wf n_max_chans ∨ x ∈ madChansOf c wf n_mad_chans := by
  rw [run_cluster_features_featchans, union1d, mem_sortNatAsc, List.mem_dedup,
    List.mem_append]

/-- A member is at most the fold-max of a list of naturals. -/
lemma le_foldr_max {l : List ℕ} {a : ℕ} (h : a ∈ l) : a ≤ l.foldr max 0 := by
  induction l with
  | nil => cases h
  | cons x t ih =>
    rcases List.mem_cons.mp h with rfl | h
    · exact Nat.le_max_left _ _
    · exact le_trans (ih h) (Nat.le_max_right _ _)

/-- The fold-max of a list of naturals is bounded by any upper bound. -/
lemma foldr_max_le {l : List ℕ} {b : ℕ} (h : ∀ a ∈ l, a ≤ b) : l.foldr max 0 ≤ b := by
  induction l with
  | nil => exact Nat.zero_le b
  | cons x t ih =>
    exact max_le (h x (by simp)) (ih fun a ha => h a (by simp [ha]))

/-- Under the component invariant the maximum component id of the global
triplet list is exactly the component count minus one. -/
lemma maxCompId_of_inv (g : GState) (h : INVc g) :
    maxCompId g.rhatT + 1 = g.muhat.length := by
  obtain ⟨_, hb, hc, hpos⟩ := h
  have h1 : maxCompId g.rhatT ≤ g.muhat.length - 1 :=
    foldr_max_le (fun a ha => by have := hb a ha; omega)
  have h2 : g.muhat.length - 1 ≤ maxCompId g.rhatT :=
    le_foldr_max (hc _ (by omega))
  omega

/-- Component ids of an appended triplet list. -/
lemma compIds_append (a b : List (ℕ × ℕ × ℚ)) :
    compIds (a ++ b) = compIds a ++ compIds b := List.map_append _ a b

/-- Component ids of an id-shifted triplet list. -/
lemma compIds_shift (ts : List (ℕ × ℕ × ℚ)) (n k : ℕ) :
    compIds (ts.map (fun t => (t.1 + n, t.2.1 + k, t.2.2))) =
      (compIds ts).map (fun x => x + k) := by
  rw [compIds, compIds, List.map_map, List.map_map]
  rfl

/-- The first fold of a well-formed channel satisfies the component
invariant. -/
lemma INVc_base (c : ChanFold) (hc : WFcomp c) :
    INVc (global_cluster_info c.vb c.ch c.score c.spikeIndex none) ∧
    (global_cluster_info c.vb c.ch c.score c.spikeIndex none).muhat.length =
      c.vb.muhat.length := by
  obtain ⟨hpos, hb, hcov⟩ := hc
  refine ⟨⟨?_, ?_, ?_, ?_⟩, rfl⟩
  · exact List.length_replicate _ _
  · exact hb
  · exact hcov
  · exact hpos

/-- One non-first fold of a well-formed channel preserves the component
invariant, adds exactly the channel's component count, and appends triplets
whose shifted component ids avoid every id already present. -/
lemma INVc_step (g : GState) (c : ChanFold) (hg : INVc g) (hc : WFcomp c) :
    INVc (global_cluster_info c.vb c.ch c.score c.spikeIndex (some g)) ∧
    (global_cluster_info c.vb c.ch c.score c.spikeIndex (some g)).muhat.length =
      g.muhat.length + c.vb.muhat.length := by
  obtain ⟨hposc, hb, hcov⟩ := hc
  have hmax := maxCompId_of_inv g hg
  obtain ⟨htl, hgb, hgcov, hgpos⟩ := hg
  have hrhat : (global_cluster_info c.vb c.ch c.score c.spikeIndex (some g)).rhatT =
      g.rhatT ++ (denseToTriplets c.vb.rhat).map
        (fun t => (t.1 + (maxSpikeId g.rhatT + 1), t.2.1 + (maxCompId g.rhatT + 1), t.2.2)) :=
    rfl
  have hcomp : compIds (global_cluster_info c.vb c.ch c.score c.spikeIndex (some g)).rhatT =
      compIds g.rhatT ++
        (compIds (denseToTriplets c.vb.rhat)).map (fun x => x + (maxCompId g.rhatT + 1)) := by
    rw [hrhat, compIds_append, compIds_shift]
  have hmu : (global_cluster_info c.vb c.ch c.score c.spikeIndex (some g)).muhat.length =
      g.muhat.length + c.vb.muhat.length := by
    show (g.muhat ++ c.vb.muhat).length = _
    exact List.length_append g.muhat c.vb.muhat
  refine ⟨⟨?_, ?_, ?_, ?_⟩, hmu⟩
  · show (g.tmpLoc ++ List.replicate c.vb.muhat.length c.ch).length = _
    rw [List.length_append, List.length_replicate, hmu, htl]
  · intro k hk
    rw [hcomp] at hk
    rw [hmu]
    rcases List.mem_append.mp hk with hk1 | hk2
    · have := hgb k hk1
      omega
    · rcases List.mem_map.mp hk2 with ⟨k0, hk0, rfl⟩
      have := hb k0 hk0
      omega
  · intro k hk
    rw [hmu] at hk
    rw [hcomp]
    refine List.mem_append.mpr ?_
    by_cases hlt : k < g.muhat.length
    · exact Or.inl (hgcov k hlt)
    · refine Or.inr (List.mem_map.mpr ⟨k - g.muhat.length, ?_, ?_⟩)
      · exact hcov _ (by omega)
      · omega
  · rw [hmu]
    omega

/-- The shifted component ids a non-first fold appends avoid every id
already present in the global triplet list. -/
lemma shifted_disjoint (g : GState) (vb : VbParamC) :
    ∀ k ∈ compIds (shiftedTriplets vb g), k ∉ compIds g.rhatT := by
  intro k hk hmem
  rw [shiftedTriplets, compIds_shift] at hk
  rcases List.mem_map.mp hk with ⟨k0, _, rfl⟩
  have := le_foldr_max (l := compIds g.rhatT) hmem
  have hmx : maxCompId g.rhatT = (compIds g.rhatT).foldr max 0 := rfl
  omega

/-- A fold over a nonempty channel list never yields the initial None. -/
lemma foldGCI_cons_some :
    ∀ (l : List ChanFold) (g : GState),
      ∃ g2, l.foldl (fun g c =>
        some (global_cluster_info c.vb c.ch c.score c.spikeIndex g)) (some g) = some g2 := by
  intro l
  induction l with
  | nil => exact fun g => ⟨g, rfl⟩
  | cons c t ih => exact fun g => ih (global_cluster_info c.vb c.ch c.score c.spikeIndex (some g))

/-- foldGCI is None exactly on the empty channel list. -/
lemma foldGCI_none_iff (l : List ChanFold) : foldGCI l = none ↔ l = [] := by
  cases l with
  | nil => simp [foldGCI]
  | cons c t =>
    constructor
    · intro h
      obtain ⟨g2, hg2⟩ := foldGCI_cons_some t
        (global_cluster_info c.vb c.ch c.score c.spikeIndex none)
      rw [foldGCI] at h
      simp only [List.foldl_cons] at h
      rw [hg2] at h
      cases h
    · intro h
      cases h

/-- Unrolling one step of the prefix fold. -/
lemma foldGCI_take_succ (cs : List ChanFold) (n : ℕ) (c : ChanFold)
    (hc : cs[n]? = some c) :
    foldGCI (cs.take (n + 1)) =
      some (global_cluster_info c.vb c.ch c.score c.spikeIndex (foldGCI (cs.take n))) := by
  rw [foldGCI, foldGCI, List.take_succ, hc]
  rw [List.foldl_append]
  rfl

/-- The component invariant and the component-count sum hold after every
prefix of the fold. -/
lemma foldGCI_inv (cs : List ChanFold) (hwf : ∀ c ∈ cs, WFcomp c) :
    ∀ n, n ≤ cs.length → ∀ g, foldGCI (cs.take n) = some g →
      INVc g ∧ g.muhat.length = ((cs.take n).map (fun c => c.vb.muhat.length)).sum := by
  intro n
  induction n with
  | zero =>
    intro _ g hg
    rw [List.take_zero] at hg
    rw [foldGCI_none_iff [] |>.mpr rfl] at hg
    cases hg
  | succ n ih =>
    intro hn g hg
    have hn' : n < cs.length := by omega
    have hcn : cs[n]? = some cs[n] := List.getElem?_eq_getElem hn'
    have hcmem : cs[n] ∈ cs := List.getElem_mem hn'
    have hsum : ((cs.take (n + 1)).map (fun c => c.vb.muhat.length)).sum =
        ((cs.take n).map (fun c => c.vb.muhat.length)).sum +
          cs[n].vb.muhat.length := by
      rw [List.take_succ, hcn]
      rw [List.map_append, List.sum_append]
      simp
    rw [foldGCI_take_succ cs n _ hcn] at hg
    cases hfold : foldGCI (cs.take n) with
    | none =>
      have htn : cs.take n = [] := (foldGCI_none_iff _).mp hfold
      rw [hfold] at hg
      injection hg with hg2
      obtain ⟨hinv, hlen⟩ := INVc_base cs[n] (hwf _ hcmem)
      subst hg2
      refine ⟨hinv, ?_⟩
      rw [hsum, htn]
      simp [hlen]
    | some g0 =>
      rw [hfold] at hg
      injection hg with hg2
      obtain ⟨hinv0, hlen0⟩ := ih (by omega) g0 hfold
      obtain ⟨hinv, hlen⟩ := INVc_step g0 cs[n] hinv0 (hwf _ hcmem)
      subst hg2
      refine ⟨hinv, ?_⟩
      rw [hsum, hlen, hlen0]

/-- Claim C3: folding channels in ascending order keeps the global state
well-indexed: after every (nonempty) prefix of folds the origin-channel
array length equals the total component count, which equals the sum of the
folded channels' post-pruning component counts and the maximum component id
in the global triplet list plus one; and the next fold appends its channel's
triplets with ids shifted by (current maximum id) + 1 (the shiftedTriplets
of the code), all of whose component ids are disjoint from those already
present. -/
theorem C3_global_aggregation (cs : List ChanFold) (hwf : ∀ c ∈ cs, WFcomp c)
    (n : ℕ) (hn : n ≤ cs.length) (g : GState) (hg : foldGCI (cs.take n) = some g) :
    g.tmpLoc.length = g.muhat.length ∧
    g.muhat.length = ((cs.take n).map (fun c => c.vb.muhat.length)).sum ∧
    maxCompId g.rhatT + 1 = g.muhat.length ∧
    (∀ c', cs.get? n = some c' →
      (global_cluster_info c'.vb c'.ch c'.score c'.spikeIndex (some g)).rhatT =
        g.rhatT ++ shiftedTriplets c'.vb g ∧
      (∀ k ∈ compIds (shiftedTriplets c'.vb g), k ∉ compIds g.rhatT)) := by
  obtain ⟨hinv, hlen⟩ := foldGCI_inv cs hwf n hn g hg
  refine ⟨hinv.1, hlen, maxCompId_of_inv g hinv, ?_⟩
  intro c' _
  exact ⟨rfl, shifted_disjoint g c'.vb⟩

/-- Witness instantiating C3_global_aggregation on the two-channel fold
input csW after both folds. -/
theorem C3_witness :
    ((∀ c ∈ csW, WFcomp c) ∧ 2 ≤ csW.length) ∧
    (∃ g, foldGCI (csW.take 2) = some g ∧
      (g.tmpLoc.length = g.muhat.length ∧
       g.muhat.length = ((csW.take 2).map (fun c => c.vb.muhat.length)).sum ∧
       maxCompId g.rhatT + 1 = g.muhat.length ∧
       (∀ c', csW.get? 2 = some c' →
         (global_cluster_info c'.vb c'.ch c'.score c'.spikeIndex (some g)).rhatT =
           g.rhatT ++ shiftedTriplets c'.vb g ∧
         (∀ k ∈ compIds (shiftedTriplets c'.vb g), k ∉ compIds g.rhatT)))) :=
  ⟨⟨by decide, by decide⟩,
    ⟨_, rfl, C3_global_aggregation csW (by decide) 2 (by decide) _ rfl⟩⟩

/-- Members of enumFrom carry indices in the enumerated range. -/
lemma fst_mem_enumFrom {α : Type} :
    ∀ (l : List α) (n : ℕ) (p : ℕ × α), p ∈ List.enumFrom n l → n ≤ p.1 ∧ p.1 < n + l.length
  | [], _, _, h => absurd h (by simp)
  | a :: t, n, p, h => by
    rcases List.mem_cons.mp h with rfl | h
    · simp
    · have := fst_mem_enumFrom t (n + 1) p h
      constructor
      · omega
      · simp only [List.length_cons]
        omega

/-- Every triplet produced from a dense matrix has its spike id below the
row count. -/
lemma denseToTriplets_fst_lt (rhat : List (List ℚ)) :
    ∀ t ∈ denseToTriplets rhat, t.1 < rhat.length := by
  intro t ht
  rw [denseToTriplets] at ht
  rcases List.mem_flatten.mp ht with ⟨chunk, hchunk, htc⟩
  rcases List.mem_map.mp hchunk with ⟨pr, hpr, rfl⟩
  have hprb := fst_mem_enumFrom rhat 0 pr hpr
  rcases List.mem_filterMap.mp htc with ⟨q, _, hq⟩
  by_cases h0 : 0 < q.2
  · rw [if_pos h0] at hq
    injection hq with hq2
    subst hq2
    omega
  · rw [if_neg h0] at hq
    cases hq

/-- Spike ids of an appended triplet list. -/
lemma spikeIds_append (a b : List (ℕ × ℕ × ℚ)) :
    spikeIds (a ++ b) = spikeIds a ++ spikeIds b := List.map_append _ a b

/-- Spike ids of an id-shifted triplet list. -/
lemma spikeIds_shift (ts : List (ℕ × ℕ × ℚ)) (n k : ℕ) :
    spikeIds (ts.map (fun t => (t.1 + n, t.2.1 + k, t.2.2))) =
      (spikeIds ts).map (fun x => x + n) := by
  rw [spikeIds, spikeIds, List.map_map, List.map_map]
  rfl

/-- Spike projection of an appended triplet list. -/
lemma spikeProj_append (a b : List (ℕ × ℕ × ℚ)) :
    spikeProj (a ++ b) = spikeProj a ++ spikeProj b := List.map_append _ a b

/-- Spike projection of an id-shifted triplet list shifts only spike ids. -/
lemma spikeProj_shift (ts : List (ℕ × ℕ × ℚ)) (n k : ℕ) :
    spikeProj (ts.map (fun t => (t.1 + n, t.2.1 + k, t.2.2))) =
      (spikeProj ts).map (fun t => (t.1 + n, t.2)) := by
  rw [spikeProj, spikeProj, List.map_map, List.map_map]
  rfl

/-- Under the spike invariant the maximum spike id of the global triplet
list is exactly the global row count minus one. -/
lemma maxSpikeId_of_inv (g : GState) (h : INVr g) :
    maxSpikeId g.rhatT + 1 = g.score.length := by
  obtain ⟨_, hb, hc, hpos⟩ := h
  have h1 : maxSpikeId g.rhatT ≤ g.score.length - 1 :=
    foldr_max_le (fun a ha => by have := hb a ha; omega)
  have h2 : g.score.length - 1 ≤ maxSpikeId g.rhatT :=
    le_foldr_max (hc _ (by omega))
  omega

/-- specTriplesAux distributes over list append, advancing the offset by
the first block's total spike count. -/
lemma specTriplesAux_append (l1 l2 : List ChanFold) (off : ℕ) :
    specTriplesAux (l1 ++ l2) off =
      specTriplesAux l1 off ++
        specTriplesAux l2 (off + (l1.map (fun c => c.score.length)).sum) := by
  induction l1 generalizing off with
  | nil => simp [specTriplesAux]
  | cons c t ih =>
    simp only [List.cons_append, specTriplesAux, List.map_cons, List.sum_cons,
      List.append_eq]
    rw [ih (off + c.score.length)]
    rw [List.append_assoc]
    have : off + c.score.length + (t.map (fun c => c.score.length)).sum =
        off + (c.score.length + (t.map (fun c => c.score.length)).sum) := by omega
    rw [this]

/-- The first fold of a spike-well-formed channel satisfies the spike
invariant. -/
lemma INVr_base (c : ChanFold) (hc : WFrow c) :
    INVr (global_cluster_info c.vb c.ch c.score c.spikeIndex none) := by
  obtain ⟨hpos, hsi, hrl, hcov⟩ := hc
  refine ⟨hsi.symm, ?_, ?_, hpos⟩
  · intro s hs
    rcases List.mem_map.mp hs with ⟨t, ht, rfl⟩
    have := denseToTriplets_fst_lt c.vb.rhat t ht
    show t.1 < c.score.length
    omega
  · exact hcov

/-- One non-first fold of a spike-well-formed channel preserves the spike
invariant and extends the state by the channel's row count. -/
lemma INVr_step (g : GState) (c : ChanFold) (hg : INVr g) (hc : WFrow c) :
    INVr (global_cluster_info c.vb c.ch c.score c.spikeIndex (some g)) ∧
    (global_cluster_info c.vb c.ch c.score c.spikeIndex (some g)).score =
      g.score ++ c.score ∧
    (global_cluster_info c.vb c.ch c.score c.spikeIndex (some g)).spikeIndex =
      g.spikeIndex ++ c.spikeIndex ∧
    spikeProj (global_cluster_info c.vb c.ch c.score c.spikeIndex (some g)).rhatT =
      spikeProj g.rhatT ++
        (spikeProj (denseToTriplets c.vb.rhat)).map (fun t => (t.1 + g.score.length, t.2)) := by
  obtain ⟨hposc, hsi, hrl, hcov⟩ := hc
  have hmax := maxSpikeId_of_inv g hg
  obtain ⟨hgsi, hgb, hgcov, hgpos⟩ := hg
  have hids : spikeIds (global_cluster_info c.vb c.ch c.score c.spikeIndex (some g)).rhatT =
      spikeIds g.rhatT ++
        (spikeIds (denseToTriplets c.vb.rhat)).map (fun x => x + (maxSpikeId g.rhatT + 1)) := by
    show spikeIds (g.rhatT ++ _) = _
    rw [spikeIds_append, spikeIds_shift]
  have hslen : (global_cluster_info c.vb c.ch c.score c.spikeIndex (some g)).score.length =
      g.score.length + c.score.length := by
    show (g.score ++ c.score).length = _
    exact List.length_append _ _
  refine ⟨⟨?_, ?_, ?_, ?_⟩, rfl, rfl, ?_⟩
  · show (g.score ++ c.score).length = (g.spikeIndex ++ c.spikeIndex).length
    rw [List.length_append, List.length_append, hgsi, hsi]
  · intro s hs
    rw [hids] at hs
    rw [hslen]
    rcases List.mem_append.mp hs with hs1 | hs2
    · have := hgb s hs1
      omega
    · rcases List.mem_map.mp hs2 with ⟨s0, hs0, rfl⟩
      have hlt : s0 < c.vb.rhat.length := by
        rcases List.mem_map.mp hs0 with ⟨t, ht, rfl⟩
        exact denseToTriplets_fst_lt c.vb.rhat t ht
      omega
  · intro i hi
    rw [hslen] at hi
    rw [hids]
    refine List.mem_append.mpr ?_
    by_cases hlt : i < g.score.length
    · exact Or.inl (hgcov i hlt)
    · refine Or.inr (List.mem_map.mpr ⟨i - g.score.length, ?_, ?_⟩)
      · exact hcov _ (by omega)
      · omega
  · rw [hslen]
    omega
  · show spikeProj (g.rhatT ++ _) = _
    rw [spikeProj_append, spikeProj_shift, hmax]

/-- The spike invariant and the concatenation characterization hold after
every prefix of the fold. -/
lemma foldGCI_inv_r (cs : List ChanFold) (hwf : ∀ c ∈ cs, WFrow c) :
    ∀ n, n ≤ cs.length → ∀ g, foldGCI (cs.take n) = some g →
      INVr g ∧
      g.score = ((cs.take n).map (fun c => c.score)).flatten ∧
      g.spikeIndex = ((cs.take n).map (fun c => c.spikeIndex)).flatten ∧
      spikeProj g.rhatT = specTriplesAux (cs.take n) 0 := by
  intro n
  induction n with
  | zero =>
    intro _ g hg
    rw [List.take_zero] at hg
    rw [foldGCI_none_iff [] |>.mpr rfl] at hg
    cases hg
  | succ n ih =>
    intro hn g hg
    have hn' : n < cs.length := by omega
    have hcn : cs[n]? = some cs[n] := List.getElem?_eq_getElem hn'
    have hcmem : cs[n] ∈ cs := List.getElem_mem hn'
    have htake : cs.take (n + 1) = cs.take n ++ [cs[n]] := by
      rw [List.take_succ, hcn]
      rfl
    rw [foldGCI_take_succ cs n _ hcn] at hg
    cases hfold : foldGCI (cs.take n) with
    | none =>
      have htn : cs.take n = [] := (foldGCI_none_iff _).mp hfold
      rw [hfold] at hg
      injection hg with hg2
      have hinv := INVr_base cs[n] (hwf _ hcmem)
      subst hg2
      rw [htake, htn]
      refine ⟨hinv, ?_, ?_, ?_⟩
      · show cs[n].score = _
        simp
      · show cs[n].spikeIndex = _
        simp
      · show spikeProj (denseToTriplets cs[n].vb.rhat) = _
        simp only [List.nil_append, specTriplesAux]
        simp
    | some g0 =>
      rw [hfold] at hg
      injection hg with hg2
      obtain ⟨hinv0, hsc0, hsi0, hsp0⟩ := ih (by omega) g0 hfold
      obtain ⟨hinv, hsc, hsi, hsp⟩ := INVr_step g0 cs[n] hinv0 (hwf _ hcmem)
      subst hg2
      have hlen0 : g0.score.length = ((cs.take n).map (fun c => c.score.length)).sum := by
        rw [hsc0]
        rw [List.length_flatten]
        rw [List.map_map]
        rfl
      refine ⟨hinv, ?_, ?_, ?_⟩
      · rw [hsc, hsc0, htake]
        rw [List.map_append, List.flatten_append]
        simp
      · rw [hsi, hsi0, htake]
        rw [List.map_append, List.flatten_append]
        simp
      · rw [hsp, hsp0, htake]
        rw [specTriplesAux_append]
        simp only [specTriplesAux]
        rw [hlen0]
        simp

/-- Claim C10: when every spike of every folded channel keeps at least one
responsibility entry above the 0.1 floor, the global triplet list stays
index-aligned with the concatenated per-spike arrays after every fold:
global_score and global_spike_index are exactly the concatenations of the
folded channels' arrays (hence have equal row counts), every triplet's
spike id is a valid row index into them, and the (spike id, probability)
projection of the triplet list is exactly the concatenation of the folded
channels' local triplets shifted by the number of spikes contributed by the
preceding channels, so each triplet refers to the same spike's feature
vector and spike reference. -/
theorem C10_spike_alignment (cs : List ChanFold) (hwf : ∀ c ∈ cs, WFrow c)
    (n : ℕ) (hn : n ≤ cs.length) (g : GState) (hg : foldGCI (cs.take n) = some g) :
    g.score.length = g.spikeIndex.length ∧
    (∀ t ∈ g.rhatT, t.1 < g.score.length ∧ t.1 < g.spikeIndex.length) ∧
    g.score = ((cs.take n).map (fun c => c.score)).flatten ∧
    g.spikeIndex = ((cs.take n).map (fun c => c.spikeIndex)).flatten ∧
    spikeProj g.rhatT = specTriplesAux (cs.take n) 0 ∧
    maxSpikeId g.rhatT + 1 = g.score.length := by
  obtain ⟨hinv, hsc, hsi, hsp⟩ := foldGCI_inv_r cs hwf n hn g hg
  refine ⟨hinv.1, ?_, hsc, hsi, hsp, maxSpikeId_of_inv g hinv⟩
  intro t ht
  have hmem : t.1 ∈ spikeIds g.rhatT := List.mem_map_of_mem _ ht
  have := hinv.2.1 t.1 hmem
  constructor
  · exact this
  · rw [← hinv.1]
    exact this

/-- Witness instantiating C10_spike_alignment on the two-channel fold input
csW after both folds. -/
theorem C10_witness :
    ((∀ c ∈ csW, WFrow c) ∧ 2 ≤ csW.length) ∧
    (∃ g, foldGCI (csW.take 2) = some g ∧
      (g.score.length = g.spikeIndex.length ∧
       (∀ t ∈ g.rhatT, t.1 < g.score.length ∧ t.1 < g.spikeIndex.length) ∧
       g.score = ((csW.take 2).map (fun c => c.score)).flatten ∧
       g.spikeIndex = ((csW.take 2).map (fun c => c.spikeIndex)).flatten ∧
       spikeProj g.rhatT = specTriplesAux (csW.take 2) 0 ∧
       maxSpikeId g.rhatT + 1 = g.score.length)) :=
  ⟨⟨by decide, by decide⟩,
    ⟨_, rfl, C10_spike_alignment csW (by decide) 2 (by decide) _ rfl⟩⟩

/-- Elements surviving a position-indexed delete were already present. -/
lemma removeIdxs_subset {l : List ℕ} {rem : List ℕ} {a : ℕ} (h : a ∈ removeIdxs l rem) :
    a ∈ l := by
  rw [removeIdxs] at h
  rcases List.mem_filterMap.mp h with ⟨p, hp, hsome⟩
  by_cases hm : p.1 ∈ rem
  · rw [if_pos hm] at hsome
    cases hsome
  · rw [if_neg hm] at hsome
    injection hsome with h2
    subst h2
    exact snd_mem_enumFrom l 0 p hp

/-- Elements gathered by fancy indexing were already present. -/
lemma gatherAt_subset {l : List ℕ} {idxs : List ℕ} {a : ℕ} (h : a ∈ gatherAt l idxs) :
    a ∈ l := by
  rw [gatherAt] at h
  rcases List.mem_filterMap.mp h with ⟨i, _, hsome⟩
  exact List.get?_mem hsome

/-- Every point of every group a round extracts comes from the current
working set. -/
lemma extractedOf_bound (st : MfmState) :
    ∀ g ∈ extractedOf st, ∀ i ∈ g, i ∈ st.indexVals := by
  intro g hg i hi
  rw [extractedOf] at hg
  by_cases hq : ((List.range (rhatCols st.rhat)).filter
      (fun k => 9/10 < stabilityOf st.rhat k)) = []
  · rw [if_pos hq] at hg
    rcases List.mem_singleton.mp hg with rfl
    exact gatherAt_subset hi
  · rw [if_neg hq] at hg
    rcases List.mem_map.mp hg with ⟨k, _, rfl⟩
    exact gatherAt_subset hi

/-- Index bound maintained over the whole run: working-set entries and all
extracted group entries stay below the initial retained-point count. -/
def MfmBound (n0 : ℕ) (st : MfmState) : Prop :=
  (∀ i ∈ st.indexVals, i < n0) ∧ (∀ g ∈ st.groups, ∀ i ∈ g, i < n0)

/-- One run_mfm round keeps the index bound. -/
lemma mfmRound_bound (oracle : ℕ → ℕ → List (List ℚ)) (t n0 : ℕ) (st : MfmState)
    (h : MfmBound n0 st) : MfmBound n0 (mfmRound oracle t st).1 := by
  obtain ⟨hiv, hgs⟩ := h
  have hiv2 : ∀ i ∈ removeIdxs st.indexVals (removedOf st), i < n0 :=
    fun i hi => hiv i (removeIdxs_subset hi)
  have hgs2 : ∀ g ∈ st.groups ++ extractedOf st, ∀ i ∈ g, i < n0 := by
    intro g hg i hi
    rcases List.mem_append.mp hg with hg1 | hg2
    · exact hgs g hg1 i hi
    · exact hiv i (extractedOf_bound st g hg2 i hi)
  simp only [mfmRound]
  by_cases h35 : (removeIdxs st.indexVals (removedOf st)).length ≤ 35
  · rw [if_pos h35]
    exact ⟨hiv2, hgs2⟩
  · rw [if_neg h35]
    by_cases hcols : rhatCols (postprocessQ
        (oracle t (removeIdxs st.indexVals (removedOf st)).length)) = 1
    · rw [if_pos hcols]
      refine ⟨hiv2, ?_⟩
      intro g hg i hi
      rcases List.mem_append.mp hg with hg1 | hg2
      · exact hgs2 g hg1 i hi
      · rcases List.mem_singleton.mp hg2 with rfl
        exact hiv2 i hi
    · rw [if_neg hcols]
      exact ⟨hiv2, hgs2⟩

/-- The loop keeps the index bound for any fuel. -/
lemma mfmLoop_bound (oracle : ℕ → ℕ → List (List ℚ)) (n0 : ℕ) :
    ∀ (fuel t : ℕ) (st : MfmState), MfmBound n0 st →
      MfmBound n0 (mfmLoop oracle fuel t st).1 := by
  intro fuel
  induction fuel with
  | zero => exact fun t st h => h
  | succ n ih =>
    intro t st h
    have hr := mfmRound_bound oracle t n0 st h
    simp only [mfmLoop]
    by_cases hb : (mfmRound oracle t st).2 = true
    · rw [if_pos hb]
      exact hr
    · rw [if_neg hb]
      exact ih (t + 1) (mfmRound oracle t st).1 hr

/-- The loop executes at most its fuel in rounds. -/
lemma mfmLoop_rounds_le (oracle : ℕ → ℕ → List (List ℚ)) :
    ∀ (fuel t : ℕ) (st : MfmState), (mfmLoop oracle fuel t st).2 ≤ fuel := by
  intro fuel
  induction fuel with
  | zero => exact fun t st => le_refl 0
  | succ n ih =>
    intro t st
    simp only [mfmLoop]
    by_cases hb : (mfmRound oracle t st).2 = true
    · rw [if_pos hb]
      omega
    · rw [if_neg hb]
      have := ih (t + 1) (mfmRound oracle t st).1
      omega

/-- Claim C8: run_mfm's stability loop executes at most 1000 refinement
rounds; a round stops the loop whenever the post-extraction working set has
at most 35 points, and whenever the refit comes back with a single
component, in which case the whole remaining working set is appended as the
final group; every round removes exactly the rows of the extracted
components from the working set and appends exactly the groups extractedOf
prescribes (every component with mean responsibility above 0.90 among its
assigned points, or the single most stable one when none qualifies); and
every group returned contains only point indices of the original retained
spike set 0..n0-1. -/
theorem C8_run_mfm (oracle : ℕ → ℕ → List (List ℚ)) (n0 t : ℕ) (st : MfmState) :
    (run_mfm oracle n0).2 ≤ 1000 ∧
    (∀ g ∈ (run_mfm oracle n0).1, ∀ i ∈ g, i < n0) ∧
    (mfmRound oracle t st).1.indexVals = removeIdxs st.indexVals (removedOf st) ∧
    ((mfmRound oracle t st).1.indexVals.length ≤ 35 → (mfmRound oracle t st).2 = true) ∧
    (¬ (mfmRound oracle t st).1.indexVals.length ≤ 35 →
      rhatCols ((mfmRound oracle t st).1.rhat) = 1 →
      (mfmRound oracle t st).2 = true ∧
      (mfmRound oracle t st).1.groups =
        st.groups ++ extractedOf st ++ [(mfmRound oracle t st).1.indexVals]) ∧
    (∃ tail, (mfmRound oracle t st).1.groups = st.groups ++ extractedOf st ++ tail ∧
      (tail = [] ∨ tail = [(mfmRound oracle t st).1.indexVals])) := by
  have hround : ∀ (t2 : ℕ) (st2 : MfmState),
      (mfmRound oracle t2 st2).1.indexVals = removeIdxs st2.indexVals (removedOf st2) := by
    intro t2 st2
    simp only [mfmRound]
    by_cases h35 : (removeIdxs st2.indexVals (removedOf st2)).length ≤ 35
    · rw [if_pos h35]
    · rw [if_neg h35]
      by_cases hcols : rhatCols (postprocessQ
          (oracle t2 (removeIdxs st2.indexVals (removedOf st2)).length)) = 1
      · rw [if_pos hcols]
      · rw [if_neg hcols]
  refine ⟨?_, ?_, hround t st, ?_, ?_, ?_⟩
  · exact mfmLoop_rounds_le oracle 1000 1 _
  · intro g hg i hi
    have hb0 : MfmBound n0 ⟨List.range n0, postprocessQ (oracle 0 n0), []⟩ := by
      constructor
      · intro i hi2
        exact List.mem_range.mp hi2
      · intro g hg2
        cases hg2
    have := mfmLoop_bound oracle n0 1000 1 _ hb0
    exact this.2 g hg i hi
  · intro h35
    rw [hround t st] at h35
    simp only [mfmRound]
    rw [if_pos h35]
  · intro h35 hcols
    rw [hround t st] at h35
    have hcols2 : rhatCols (postprocessQ
        (oracle t (removeIdxs st.indexVals (removedOf st)).length)) = 1 := by
      revert hcols
      simp only [mfmRound]
      rw [if_neg h35]
      by_cases hc : rhatCols (postprocessQ
          (oracle t (removeIdxs st.indexVals (removedOf st)).length)) = 1
      · intro _
        exact hc
      · rw [if_neg hc]
        intro h
        exact absurd h hc
    constructor
    · simp only [mfmRound]
      rw [if_neg h35, if_pos hcols2]
    · simp only [mfmRound]
      rw [if_neg h35, if_pos hcols2]
  · simp only [mfmRound]
    by_cases h35 : (removeIdxs st.indexVals (removedOf st)).length ≤ 35
    · rw [if_pos h35]
      exact ⟨[], by simp, Or.inl rfl⟩
    · rw [if_neg h35]
      by_cases hcols : rhatCols (postprocessQ
          (oracle t (removeIdxs st.indexVals (removedOf st)).length)) = 1
      · rw [if_pos hcols]
        exact ⟨[removeIdxs st.indexVals (removedOf st)], rfl, Or.inr rfl⟩
      · rw [if_neg hcols]
        exact ⟨[], by simp, Or.inl rfl⟩

/-- Witness instantiating C8_run_mfm on the concrete oracle oracleMfmW with
40 retained points and the concrete state stW8. -/
theorem C8_witness :
    (run_mfm oracleMfmW 40).2 ≤ 1000 ∧
    (∀ g ∈ (run_mfm oracleMfmW 40).1, ∀ i ∈ g, i < 40) ∧
    (mfmRound oracleMfmW 0 stW8).1.indexVals =
      removeIdxs stW8.indexVals (removedOf stW8) ∧
    ((mfmRound oracleMfmW 0 stW8).1.indexVals.length ≤ 35 →
      (mfmRound oracleMfmW 0 stW8).2 = true) ∧
    (¬ (mfmRound oracleMfmW 0 stW8).1.indexVals.length ≤ 35 →
      rhatCols ((mfmRound oracleMfmW 0 stW8).1.rhat) = 1 →
      (mfmRound oracleMfmW 0 stW8).2 = true ∧
      (mfmRound oracleMfmW 0 stW8).1.groups =
        stW8.groups ++ extractedOf stW8 ++ [(mfmRound oracleMfmW 0 stW8).1.indexVals]) ∧
    (∃ tail, (mfmRound oracleMfmW 0 stW8).1.groups =
        stW8.groups ++ extractedOf stW8 ++ tail ∧
      (tail = [] ∨ tail = [(mfmRound oracleMfmW 0 stW8).1.indexVals])) :=
  C8_run_mfm oracleMfmW 40 0 stW8

end Yass
